import Mathlib

/-!
Move ordering statistics and move picker (`src/movepick.h`).

A shallow embedding of the `Stats` table template, the history tables built on
it, and the staged move picker, together with the properties claimed of them.

Conventions.
* C++ `int` values are `Int`; the 32-bit range is checked explicitly
  (`fitsInt`), and the narrowing store into an `int16_t` entry is `toInt16`.
* `a / b` on C++ ints is `Int.tdiv` (truncation toward zero).
* An N-dimensional `Stats` object is its run of leaf cells in memory, a
  `List` of `T`; `operator[]` chains are offsets into that run.
-/

namespace Stockfish

/-! ## Integers as the C++ code sees them -/

/-- `abs` of `<cstdlib>` on an `int`. -/
def iabs (x : Int) : Int := if x < 0 then -x else x

/-- Largest value of a 32-bit `int`. -/
def INT_MAX : Int := 2147483647

/-- Smallest value of a 32-bit `int`. -/
def INT_MIN : Int := -2147483648

/-- Value of `std::numeric_limits<int16_t>::max()`. -/
def INT16_MAX : Int := 32767

/-- Smallest value of an `int16_t`. -/
def INT16_MIN : Int := -32768

/-- The value is representable in a 32-bit `int`. -/
def fitsInt (x : Int) : Bool := decide (INT_MIN ≤ x) && decide (x ≤ INT_MAX)

/-- The value is representable in an `int16_t`. -/
def fitsInt16 (x : Int) : Bool := decide (INT16_MIN ≤ x) && decide (x ≤ INT16_MAX)

/-- Conversion of an `int` to `int16_t` (reduction modulo `2^16` into the signed range). -/
def toInt16 (x : Int) : Int := (x + 32768) % 65536 - 32768

/-- What can go wrong in one run of `Stats::update` on an `int16_t` table. -/
inductive Fault where
  /-- The check `assert(abs(bonus) <= D)` fails. -/
  | assert_bonus
  /-- The check `assert(abs(W * D) < numeric_limits<T>::max())` fails. -/
  | assert_range
  /-- The divisor `D` is zero. -/
  | div_by_zero
  /-- Some intermediate value leaves the range of `int`. -/
  | int_overflow
  /-- The check `assert(abs(entry) <= W * D)` fails. -/
  | assert_entry
  /-- An `operator[]` index lies outside its array. -/
  | out_of_bounds
deriving DecidableEq, Repr

deriving instance DecidableEq for Except

/-! ## `Stats::update` -/

namespace Stats

/-- The right-hand side of `entry += bonus * W - entry * abs(bonus) / D`, as the
exact integer `entry + (bonus * W - entry * abs(bonus) / D)`. -/
def update_value (W D entry bonus : Int) : Int :=
  entry + (bonus * W - Int.tdiv (entry * iabs bonus) D)

/-- One call `update(entry, bonus)` of `Stats<int16_t, W, D, ...>` (lines 42-50),
with its three assertions, the division and the `int` arithmetic checked, and
the result narrowed to `int16_t` on the store. -/
def update (W D entry bonus : Int) : Except Fault Int :=
  if ¬ fitsInt (iabs bonus) then .error .int_overflow
  else if ¬ (iabs bonus ≤ D) then .error .assert_bonus
  else if ¬ (iabs (W * D) < INT16_MAX) then .error .assert_range
  else
    let t1 := bonus * W
    let t2 := entry * iabs bonus
    if D = 0 then .error .div_by_zero
    else
      let t3 := Int.tdiv t2 D
      let t4 := t1 - t3
      let t5 := entry + t4
      if ¬ (fitsInt t1 && fitsInt t2 && fitsInt t3 && fitsInt t4 && fitsInt t5) then
        .error .int_overflow
      else
        let stored := toInt16 t5
        if ¬ (iabs stored ≤ W * D) then .error .assert_entry
        else .ok stored

/-- A sequence of `update` calls on one entry, stopping at the first fault. -/
def updates (W D : Int) : Int → List Int → Except Fault Int
  | entry, [] => .ok entry
  | entry, b :: bs =>
    match update W D entry b with
    | .ok e => updates W D e bs
    | .error f => .error f

/-- The entry after `n` updates with the same bonus: `e_0 = entry`,
`e_(n+1) = update(e_n, bonus)`. -/
def iterate_update (W D bonus entry : Int) : Nat → Int
  | 0 => entry
  | n + 1 => update_value W D (iterate_update W D bonus entry n) bonus

end Stats

/-- Template arguments `W` and `D` of a `Stats` instantiation. -/
structure Params where
  /-- Weight `W`. -/
  W : Int
  /-- Divisor `D`. -/
  D : Int
deriving DecidableEq, Repr

/-- Arguments of `typedef Stats<int16_t, 32, 324, ...> ButterflyBoards` (line 58). -/
def ButterflyBoards : Params := ⟨32, 324⟩

/-- Arguments of `typedef Stats<int16_t, 32, 936, ...> PieceToBoards` (line 61). -/
def PieceToBoards : Params := ⟨32, 936⟩

/-- Arguments of `typedef Stats<int16_t, 2, 324, ...> CapturePieceToBoards` (line 64). -/
def CapturePieceToBoards : Params := ⟨2, 324⟩

/-- The element types `T` of the `Stats` instantiations of lines 58-99. -/
inductive Elem where
  /-- `int16_t`, the element type of the three score tables. -/
  | int16
  /-- The enumeration `Move`, the element type of `CounterMoveHistory`. -/
  | move
  /-- The class type `PieceToHistory`, the element type of `ContinuationHistory`. -/
  | piece_to_history
deriving DecidableEq, Repr

/-- The value that `(std::numeric_limits<T>::max)()` has in the comparison of
line 45: 32767 for `int16_t`; for the enumeration `Move`, for which `<limits>`
has no specialisation, the value-initialised `Move()`, which is 0; nothing for
the class type `PieceToHistory`, for which lines 45-47 are ill-formed. -/
def numeric_limits_max : Elem → Option Int
  | .int16 => some INT16_MAX
  | .move => some 0
  | .piece_to_history => none

/-- A `Stats` instantiation: its element type `T` and its arguments `W` and `D`. -/
structure Instantiation where
  /-- Element type `T`. -/
  T : Elem
  /-- Weight `W`. -/
  W : Int
  /-- Divisor `D`. -/
  D : Int
deriving DecidableEq, Repr

/-- The instantiation `typedef Stats<Move, 32, 0, ...> CounterMoveHistory` (line 94). -/
def CounterMoveHistory : Instantiation := ⟨.move, 32, 0⟩

namespace Stats

/-- One call `update(entry, bonus)` of `Stats<T, W, D, ...>` (lines 42-50) for
an element type `T` that converts to `int`: `max` is the value of
`numeric_limits<T>::max()` in the second assertion and `store` is the
conversion of the `int` result to `T` on the store. -/
def update_generic (max : Int) (store : Int → Int) (W D entry bonus : Int) :
    Except Fault Int :=
  if ¬ fitsInt (iabs bonus) then .error .int_overflow
  else if ¬ (iabs bonus ≤ D) then .error .assert_bonus
  else if ¬ (iabs (W * D) < max) then .error .assert_range
  else
    let t1 := bonus * W
    let t2 := entry * iabs bonus
    if D = 0 then .error .div_by_zero
    else
      let t3 := Int.tdiv t2 D
      let t4 := t1 - t3
      let t5 := entry + t4
      if ¬ (fitsInt t1 && fitsInt t2 && fitsInt t3 && fitsInt t4 && fitsInt t5) then
        .error .int_overflow
      else
        let stored := store t5
        if ¬ (iabs stored ≤ W * D) then .error .assert_entry
        else .ok stored

/-- The member `update` of an instantiation with element type `T`: there is
none when lines 45-47 are ill-formed for `T`; otherwise it is `update_generic`
with the `max()` of `T`. -/
def update_T (T : Elem) (store : Int → Int) (W D entry bonus : Int) :
    Option (Except Fault Int) :=
  match numeric_limits_max T with
  | none => none
  | some mx => some (update_generic mx store W D entry bonus)

end Stats

/-! ## The `Stats` array: layout, `front`, `fill`, `operator[]` -/

/-- Modelled from the spec: `Move`, "an opaque packed value", "comparable for
equality"; the type is declared in `types.h`. -/
abbrev Move := Nat

namespace Stats

/-- Value of `sizeof` for a `Stats<T, W, D, Size, Sizes...>` object, given
`sizeof(T)`: the object is a `std::array` of `Size` sub-objects stored one after
the other (lines 33 and 54), so its size is `Size` times the size of one
sub-object. The empty list of axes stands for `T` itself. -/
def sizeof_Stats (sizeofT : Nat) : List Nat → Nat
  | [] => sizeofT
  | n :: ds => n * sizeof_Stats sizeofT ds

/-- Number of leaf entries below a `Stats` with these axis sizes. -/
def cells : List Nat → Nat
  | [] => 1
  | n :: ds => n * cells ds

/-- Position of the leaf `(*this)[k0][k1]...` in the run of leaf cells of the
object: `operator[]` with index `k` skips `k` whole sub-objects. -/
def offset : List Nat → List Nat → Nat
  | _ :: ds, k :: ks => k * cells ds + offset ds ks
  | _, _ => 0

/-- Every index of the key is below the size of its axis, and the key has one
index per axis. -/
def in_range : List Nat → List Nat → Bool
  | [], [] => true
  | n :: ds, k :: ks => decide (k < n) && in_range ds ks
  | _, _ => false

/-- Position of the leaf returned by `front()` (line 35): `(*this)[0].front()`,
down to `std::array::front` of the last axis, which is its element 0. -/
def front : List Nat → Nat
  | [] => 0
  | [_] => 0
  | _ :: d :: ds => 0 * cells (d :: ds) + front (d :: ds)

/-- The loop of `std::fill(first, first + count, v)` over the run of cells. -/
def std_fill {T : Type} (mem : List T) (first : Nat) : Nat → T → List T
  | 0, _ => mem
  | n + 1, v => std_fill (mem.set first v) (first + 1) n v

/-- The member `fill(v)` (lines 37-40): `p = &front()`, then
`std::fill(p, p + sizeof(*this) / sizeof(*p), v)`. -/
def fill {T : Type} (sizeofT : Nat) (dims : List Nat) (mem : List T) (v : T) : List T :=
  let p := front dims
  std_fill mem p (sizeof_Stats sizeofT dims / sizeofT) v

/-- Read of `(*this)[k0][k1]...`; `none` when an index is out of its axis. -/
def lookup {T : Type} (dims : List Nat) (mem : List T) (key : List Nat) : Option T :=
  if in_range dims key then mem[offset dims key]? else none

/-- The call `update((*this)[k0][k1]..., bonus)` on an `int16_t` table: the keyed
entry is read, `update` runs on it, and the result is stored back in place. -/
def update_at (P : Params) (dims : List Nat) (mem : List Int) (key : List Nat)
    (bonus : Int) : Except Fault (List Int) :=
  match lookup dims mem key with
  | none => .error .out_of_bounds
  | some entry =>
    match update P.W P.D entry bonus with
    | .ok e => .ok (mem.set (offset dims key) e)
    | .error f => .error f

end Stats

/-- The enumeration sizes that give the tables their shape; they are declared in
`types.h` and are parameters here. -/
structure Sizes where
  /-- Number of colours, `COLOR_NB`. -/
  COLOR_NB : Nat
  /-- Number of squares, `SQUARE_NB`. -/
  SQUARE_NB : Nat
  /-- Number of piece codes, `PIECE_NB`. -/
  PIECE_NB : Nat
  /-- Number of piece types, `PIECE_TYPE_NB`. -/
  PIECE_TYPE_NB : Nat

/-- Axis sizes of `ButterflyBoards` (line 58): `[COLOR_NB][SQUARE_NB * SQUARE_NB]`. -/
def ButterflyBoards.dims (S : Sizes) : List Nat := [S.COLOR_NB, S.SQUARE_NB * S.SQUARE_NB]

/-- Axis sizes of `PieceToBoards` (line 61): `[PIECE_NB][SQUARE_NB]`. -/
def PieceToBoards.dims (S : Sizes) : List Nat := [S.PIECE_NB, S.SQUARE_NB]

/-- Axis sizes of `CapturePieceToBoards` (line 64): `[PIECE_NB][SQUARE_NB][PIECE_TYPE_NB]`. -/
def CapturePieceToBoards.dims (S : Sizes) : List Nat :=
  [S.PIECE_NB, S.SQUARE_NB, S.PIECE_TYPE_NB]

/-- Axis sizes of `CounterMoveHistory` (line 94): `[PIECE_NB][SQUARE_NB]`. -/
def CounterMoveHistory.dims (S : Sizes) : List Nat := [S.PIECE_NB, S.SQUARE_NB]

/-- `ButterflyHistory::update(c, m, bonus)` (lines 71-73); `from_to` is the
helper of `types.h` that maps a move to its origin/destination index. -/
def ButterflyHistory.update (S : Sizes) (from_to : Move → Nat) (table : List Int)
    (c : Nat) (m : Move) (bonus : Int) : Except Fault (List Int) :=
  Stats.update_at ButterflyBoards (ButterflyBoards.dims S) table [c, from_to m] bonus

/-- `PieceToHistory::update(pc, to, bonus)` (lines 79-81). -/
def PieceToHistory.update (S : Sizes) (table : List Int)
    (pc to_ : Nat) (bonus : Int) : Except Fault (List Int) :=
  Stats.update_at PieceToBoards (PieceToBoards.dims S) table [pc, to_] bonus

/-- `CapturePieceToHistory::update(pc, to, captured, bonus)` (lines 87-89). -/
def CapturePieceToHistory.update (S : Sizes) (table : List Int)
    (pc to_ captured : Nat) (bonus : Int) : Except Fault (List Int) :=
  Stats.update_at CapturePieceToBoards (CapturePieceToBoards.dims S) table
    [pc, to_, captured] bonus

/-- Modelled from the spec: the store into the CounterMove table, which is made
outside `movepick.h`. The table "stores a single `Move` value per (piece,
destination) key with no decay, overwritten on every observation": the update
for key `(pc, sq)` with move `m` is the assignment `table[pc][sq] = m`. -/
def CounterMoveHistory.store (S : Sizes) (table : List Move) (pc sq : Nat) (m : Move) :
    Except Fault (List Move) :=
  if Stats.in_range (CounterMoveHistory.dims S) [pc, sq] then
    .ok (table.set (Stats.offset (CounterMoveHistory.dims S) [pc, sq]) m)
  else .error .out_of_bounds

/-! ## The move picker

`movepick.h` declares `MovePicker` and `next_move` (lines 109-134); their
bodies are not in this header. The definitions of this section follow the staged
selection of the specification, section 4.4. -/

/-- Modelled from the spec: the distinguished "none" sentinel of `Move`, which
is declared in `types.h`; here it is the value 0. -/
def MOVE_NONE : Move := 0

/-- Modelled from the spec: `ExtMove`, "a (Move, score) pair used only inside
the picker's working buffer"; the type is declared in `movegen.h`. -/
structure ExtMove where
  /-- The move. -/
  move : Move
  /-- The ordering key given by the scoring pass. -/
  value : Int
deriving DecidableEq, Repr

/-- Modelled from the spec: the collaborators of the picker, for one position
and one state of the history tables: the move generator ("captures-only,
quiets-only"), the scoring formulas of `score<GenType>()`, and the SEE oracle. -/
structure Env where
  /-- Moves of the generator in captures mode. -/
  captures : List Move
  /-- Moves of the generator in quiets mode. -/
  quiets : List Move
  /-- Score that `score<CAPTURES>()` gives a capture. -/
  capture_score : Move → Int
  /-- Score that `score<QUIETS>()` gives a quiet move. -/
  quiet_score : Move → Int
  /-- SEE test of the general search: the capture is "good". -/
  see_good : Move → Bool
  /-- SEE threshold oracle: the capture nets at least the given value. -/
  see_ge : Move → Int → Bool
  /-- Destination square of a move. -/
  to_sq : Move → Nat

/-- Modelled from the spec: the three initialisation modes of the picker, one
per constructor (lines 113-115). -/
inductive Mode where
  /-- General search, with killers, countermove and continuation chain. -/
  | general
  /-- Quiescence/probcut, with a value threshold. -/
  | threshold (value : Int)
  /-- Recapture-restricted search, with a target square. -/
  | recapture (square : Nat)
deriving DecidableEq, Repr

/-- Modelled from the spec: the stages of section 4.4, with the two generation
stages split into their entry and their serving part. -/
inductive Stage where
  | hash_move
  | captures_init
  | good_captures
  | killer0
  | killer1
  | countermove
  | quiets_init
  | quiets
  | bad_captures
  | exhausted
deriving DecidableEq, Repr

/-- Modelled from the spec: the state of a picker. `cur` is the unconsumed
range `[cur, endMoves)` of the working buffer, `bad` the region of deferred bad
captures, and `served` the moves returned so far, which the stages consult
("has not already been served"). -/
structure MovePicker where
  /-- Mode fixed by the constructor. -/
  mode : Mode
  /-- Hash move. -/
  ttMove : Move
  /-- Countermove. -/
  countermove : Move
  /-- First killer, `killers[0]`. -/
  killer0 : Move
  /-- Second killer, `killers[1]`. -/
  killer1 : Move
  /-- Stage identifier. -/
  stage : Stage
  /-- Unconsumed range of the working buffer. -/
  cur : List ExtMove
  /-- Deferred bad captures, in the order they were found. -/
  bad : List Move
  /-- Moves already returned. -/
  served : List Move
deriving DecidableEq, Repr

namespace MovePicker

/-- Modelled from the spec: the constructor for general search (line 115). -/
def general (ttm countermove killer0 killer1 : Move) : MovePicker :=
  ⟨.general, ttm, countermove, killer0, killer1, .hash_move, [], [], []⟩

/-- Modelled from the spec: the constructor with a value threshold (line 113);
it takes no killers and no countermove. -/
def with_threshold (ttm : Move) (value : Int) : MovePicker :=
  ⟨.threshold value, ttm, MOVE_NONE, MOVE_NONE, MOVE_NONE, .hash_move, [], [], []⟩

/-- Modelled from the spec: the constructor with a recapture square (line 114);
it takes no killers and no countermove. -/
def with_recapture (ttm : Move) (square : Nat) : MovePicker :=
  ⟨.recapture square, ttm, MOVE_NONE, MOVE_NONE, MOVE_NONE, .hash_move, [], [], []⟩

/-- Modelled from the spec: the linear scan for the maximum score. `b` is the
best element so far, found at index `bi`; `j` is the index of the head of the
rest. A later element replaces the best one only when its score is greater. -/
def best_from (b : ExtMove) (bi : Nat) : Nat → List ExtMove → Nat
  | _, [] => bi
  | j, x :: xs =>
    if b.value < x.value then best_from x j (j + 1) xs else best_from b bi (j + 1) xs

/-- Modelled from the spec: index of the maximum-score element of the range. -/
def best_index : List ExtMove → Nat
  | [] => 0
  | x :: xs => best_from x 0 1 xs

/-- Modelled from the spec: exchange of the element at index `i` with the
front of the range. -/
def swap_front : List ExtMove → Nat → List ExtMove
  | [], _ => []
  | x :: xs, 0 => x :: xs
  | x :: xs, i + 1 =>
    match xs[i]? with
    | some y => y :: xs.set i x
    | none => x :: xs

/-- Modelled from the spec: lazy selection. The picker "scans only the
unconsumed sub-range of the working buffer, finds the maximum-score element via
a linear scan, swaps it to the front of the unconsumed range, and returns it";
the result is that element and the range after it. -/
def pick_best (buf : List ExtMove) : Option (ExtMove × List ExtMove) :=
  match swap_front buf (best_index buf) with
  | [] => none
  | y :: rest => some (y, rest)

/-- Modelled from the spec: the scoring pass, which "populates the score field
of every newly generated ExtMove". -/
def score (f : Move → Int) (ms : List Move) : List ExtMove :=
  ms.map (fun m => ⟨m, f m⟩)

/-- Modelled from the spec: a move is pseudo-legal in the position when the
move generator, the "exhaustive legal/pseudo-legal move enumeration", gives it
in captures mode or in quiets mode. -/
def pseudo_legal (env : Env) (m : Move) : Bool :=
  decide (m ∈ env.captures) || decide (m ∈ env.quiets)

/-- The move is returned to the caller and recorded as served. -/
def serve (p : MovePicker) (m : Move) (next : Stage) (cur : List ExtMove) (bad : List Move) :
    Move × MovePicker :=
  (m, { p with stage := next, cur := cur, bad := bad, served := m :: p.served })

/-- Modelled from the spec: stage 7, "subsequent calls return the no-move sentinel". -/
def do_exhausted (p : MovePicker) : Move × MovePicker :=
  (MOVE_NONE, { p with stage := .exhausted })

/-- Modelled from the spec: the deferred region from its first move that has
not been served yet, as "no move is returned twice". -/
def skip_served (served : List Move) : List Move → List Move
  | [] => []
  | m :: rest => if m ∈ served then skip_served served rest else m :: rest

/-- Modelled from the spec: stage 6, the deferred bad captures "served in
original discovery order". A deferred capture that an earlier stage has served
in the meantime is passed over: `next_move` "returns a new pseudo legal move
each time it is called" (lines 103-104). -/
def do_bad_captures (p : MovePicker) : Move × MovePicker :=
  match skip_served p.served p.bad with
  | m :: rest => serve p m .bad_captures [] rest
  | [] => do_exhausted p

/-- Modelled from the spec: serving part of stage 5, lazy selection among the
scored quiet moves; `skipQuiets` sends the picker on to stage 6. -/
def do_quiets (p : MovePicker) (skipQuiets : Bool) : Move × MovePicker :=
  if skipQuiets then do_bad_captures { p with cur := [] }
  else
    match pick_best p.cur with
    | some (x, rest) => serve p x.move .quiets rest p.bad
    | none => do_bad_captures { p with cur := [] }

/-- Modelled from the spec: entry of stage 5. The quiet moves are "generated
once, scored ..., excluding any move already served in earlier stages"; with
`skipQuiets` the picker jumps "directly from stage 4 to stage 6". -/
def do_quiets_init (env : Env) (p : MovePicker) (skipQuiets : Bool) : Move × MovePicker :=
  if skipQuiets then do_bad_captures { p with cur := [] }
  else
    do_quiets
      { p with cur := score env.quiet_score (env.quiets.filter (fun m => m ∉ p.served)) }
      false

/-- Modelled from the spec: stage 4, the countermove "served once if distinct
from hash move and both killers". As every move `next_move` returns is "a new
pseudo legal move" (lines 103-104), it is served only if it is pseudo-legal and
has not been served yet. -/
def do_countermove (env : Env) (p : MovePicker) (skipQuiets : Bool) : Move × MovePicker :=
  if p.countermove ≠ MOVE_NONE ∧ p.countermove ≠ p.ttMove ∧ p.countermove ≠ p.killer0 ∧
      p.countermove ≠ p.killer1 ∧ p.countermove ∉ p.served ∧
      pseudo_legal env p.countermove = true then
    serve p p.countermove .quiets_init [] p.bad
  else do_quiets_init env p skipQuiets

/-- Modelled from the spec: second half of stage 3, `killers[1]`, served if it
is "pseudo-legal-distinct from the hash move" and from `killers[0]` and "has
not already been served". -/
def do_killer1 (env : Env) (p : MovePicker) (skipQuiets : Bool) : Move × MovePicker :=
  if p.killer1 ≠ MOVE_NONE ∧ p.killer1 ≠ p.ttMove ∧ p.killer1 ≠ p.killer0 ∧
      p.killer1 ∉ p.served ∧ pseudo_legal env p.killer1 = true then
    serve p p.killer1 .countermove [] p.bad
  else do_countermove env p skipQuiets

/-- Modelled from the spec: first half of stage 3, `killers[0]`, served if it
is "pseudo-legal-distinct from the hash move" and "has not already been
served". -/
def do_killer0 (env : Env) (p : MovePicker) (skipQuiets : Bool) : Move × MovePicker :=
  if p.killer0 ≠ MOVE_NONE ∧ p.killer0 ≠ p.ttMove ∧ p.killer0 ∉ p.served ∧
      pseudo_legal env p.killer0 = true then
    serve p p.killer0 .killer1 [] p.bad
  else do_killer1 env p skipQuiets

/-- Modelled from the spec: serving part of stage 2, lazy selection among the
captures kept for this stage. When they run out, the general search goes on to
the killers; the two specialised modes, which have no killers, countermove or
continuation chain and keep no deferred captures, are exhausted. -/
def do_good_captures (env : Env) (p : MovePicker) (skipQuiets : Bool) : Move × MovePicker :=
  match pick_best p.cur with
  | some (x, rest) => serve p x.move .good_captures rest p.bad
  | none =>
    match p.mode with
    | .general => do_killer0 env { p with cur := [] } skipQuiets
    | _ => do_exhausted p

/-- Modelled from the spec: entry of stage 2. The generator is "invoked once
for pseudo-legal captures", each capture is scored, and the hash move, which is
"never re-served", is left out. In general search a SEE test splits the
captures into good ones, served now, and bad ones, "appended to a trailing
deferred region"; in the other two modes captures are "filtered by an explicit
value threshold or restricted to the configured recapture square" and the rest
is dropped. -/
def do_captures_init (env : Env) (p : MovePicker) (skipQuiets : Bool) : Move × MovePicker :=
  let caps := env.captures.filter (fun m => m ≠ p.ttMove)
  match p.mode with
  | .general =>
    do_good_captures env
      { p with cur := score env.capture_score (caps.filter (fun m => env.see_good m)),
               bad := caps.filter (fun m => !env.see_good m) } skipQuiets
  | .threshold v =>
    do_good_captures env
      { p with cur := score env.capture_score (caps.filter (fun m => env.see_ge m v)),
               bad := [] } skipQuiets
  | .recapture s =>
    do_good_captures env
      { p with cur := score env.capture_score (caps.filter (fun m => env.to_sq m = s)),
               bad := [] } skipQuiets

/-- Modelled from the spec: stage 1, "if the supplied hash move is non-none, it
is served first and unconditionally". -/
def do_hash_move (env : Env) (p : MovePicker) (skipQuiets : Bool) : Move × MovePicker :=
  if p.ttMove ≠ MOVE_NONE then serve p p.ttMove .captures_init [] []
  else do_captures_init env p skipQuiets

/-- Modelled from the spec: `next_move(skipQuiets)` (line 116), "the single
public entry point": the picker resumes at its current stage and returns one
move, or the sentinel at exhaustion, together with its new state. -/
def next_move (env : Env) (p : MovePicker) (skipQuiets : Bool) : Move × MovePicker :=
  match p.stage with
  | .hash_move => do_hash_move env p skipQuiets
  | .captures_init => do_captures_init env p skipQuiets
  | .good_captures => do_good_captures env p skipQuiets
  | .killer0 => do_killer0 env p skipQuiets
  | .killer1 => do_killer1 env p skipQuiets
  | .countermove => do_countermove env p skipQuiets
  | .quiets_init => do_quiets_init env p skipQuiets
  | .quiets => do_quiets p skipQuiets
  | .bad_captures => do_bad_captures p
  | .exhausted => do_exhausted p

/-- A sequence of `next_move` calls, one per flag; the result is the list of
returned moves and the final state. -/
def run (env : Env) : MovePicker → List Bool → List Move × MovePicker
  | p, [] => ([], p)
  | p, f :: fs =>
    let r := next_move env p f
    let rs := run env r.2 fs
    (r.1 :: rs.1, rs.2)

end MovePicker

/-! ## Predicates on picker states used in the proofs -/

namespace MovePicker

/-- The picker was created by one of the three constructors with hash move `m`. -/
def constructed_with (m : Move) (p : MovePicker) : Prop :=
  (∃ cm k0 k1, p = general m cm k0 k1) ∨ (∃ v, p = with_threshold m v) ∨
    (∃ s, p = with_recapture m s)

/-- The hash move is not the sentinel, has been served, and is not waiting
among the deferred captures. -/
def tt_done (p : MovePicker) : Prop :=
  p.ttMove ≠ MOVE_NONE ∧ p.ttMove ∈ p.served ∧ p.ttMove ∉ p.bad

/-- The hash move is past: `tt_done`, the stage is after the first, and in the
two serving stages the hash move is not in the unconsumed range. -/
def tt_past (p : MovePicker) : Prop :=
  tt_done p ∧ p.stage ≠ .hash_move ∧
    ((p.stage = .good_captures ∨ p.stage = .quiets) → ∀ x ∈ p.cur, x.move ≠ p.ttMove)

/-- The result of a call does not return the hash move of `p` and leaves a
state in which the hash move is past. -/
def tt_kept (p : MovePicker) (r : Move × MovePicker) : Prop :=
  r.1 ≠ p.ttMove ∧ r.2.ttMove = p.ttMove ∧ tt_past r.2

end MovePicker

namespace MovePicker

/-- In the two serving stages every element of the unconsumed range carries the
score of its move and is not above the score of the move just returned. -/
def bounded_by (env : Env) (r : Move × MovePicker) : Prop :=
  (r.2.stage = .good_captures → ∀ z ∈ r.2.cur,
    z.value = env.capture_score z.move ∧ z.value ≤ env.capture_score r.1) ∧
  (r.2.stage = .quiets → ∀ z ∈ r.2.cur,
    z.value = env.quiet_score z.move ∧ z.value ≤ env.quiet_score r.1)

/-- In the two serving stages every element of the unconsumed range carries the
score of its move. -/
def scored (env : Env) (p : MovePicker) : Prop :=
  (p.stage = .good_captures → ∀ z ∈ p.cur, z.value = env.capture_score z.move) ∧
  (p.stage = .quiets → ∀ z ∈ p.cur, z.value = env.quiet_score z.move)

/-- A small environment: captures 11, 12, 13 scored by their own value, quiets
21, 22, 23 scored in the opposite order, capture 12 failing the SEE test. -/
def sample_env : Env :=
  ⟨[11, 12, 13], [21, 22, 23], fun m => (m : Int), fun m => 100 - (m : Int),
    fun m => m != 12, fun m v => decide (v ≤ (m : Int)), fun m => m % 64⟩

end MovePicker

/-! ## The moves a picker still has to return -/

namespace MovePicker

end MovePicker

/-! ## Conditions on the generator and accounts of the served moves -/

namespace MovePicker

end MovePicker

/-! ## Arithmetic of the update rule -/

theorem iabs_nonneg (x : Int) : 0 ≤ iabs x := by
  unfold iabs; split <;> omega

theorem iabs_le_iff (x c : Int) : iabs x ≤ c ↔ -c ≤ x ∧ x ≤ c := by
  unfold iabs; split <;> omega

theorem iabs_eq_abs (x : Int) : iabs x = |x| := by
  unfold iabs
  split
  · rw [abs_of_neg]; assumption
  · rw [abs_of_nonneg]; omega

theorem fitsInt_iff (x : Int) : fitsInt x = true ↔ -2147483648 ≤ x ∧ x ≤ 2147483647 := by
  simp [fitsInt, INT_MIN, INT_MAX]

theorem toInt16_of_fits (x : Int) (h1 : -32768 ≤ x) (h2 : x ≤ 32767) : toInt16 x = x := by
  unfold toInt16; omega

/-- Division identity for the truncating quotient, with the sign of the remainder. -/
theorem tdiv_spec (x D : Int) (hD : 0 < D) :
    ∃ r : Int, D * Int.tdiv x D + r = x ∧ -D < r ∧ r < D ∧
      (0 ≤ x → 0 ≤ r) ∧ (x ≤ 0 → r ≤ 0) := by
  have hneg : Int.tmod (-x) D = -Int.tmod x D := by
    rw [Int.tmod_def, Int.tmod_def, Int.neg_tdiv]; ring
  refine ⟨Int.tmod x D, Int.tdiv_add_tmod x D, ?_, Int.tmod_lt_of_pos x hD, ?_, ?_⟩
  · rcases le_total 0 x with h | h
    · have := Int.tmod_nonneg D h; omega
    · have h1 : Int.tmod (-x) D < D := Int.tmod_lt_of_pos (-x) hD
      omega
  · intro h; exact Int.tmod_nonneg D h
  · intro h
    have h1 : 0 ≤ Int.tmod (-x) D := Int.tmod_nonneg D (by omega)
    omega

/-- A table whose range `[-W*D, W*D]` is inhabited has a non-negative weight. -/
theorem weight_nonneg (W D e : Int) (hD : 1 ≤ D) (he : iabs e ≤ W * D) : 0 ≤ W := by
  have hWD : 0 ≤ W * D := le_trans (iabs_nonneg e) he
  by_contra h
  have : W * D < 0 := mul_neg_of_neg_of_pos (by omega) (by omega)
  omega

/-- `D` times the updated value, with the quotient replaced by its remainder. -/
theorem update_value_scaled (W D e b r : Int)
    (hr : D * Int.tdiv (e * iabs b) D + r = e * iabs b) :
    D * Stats.update_value W D e b = e * (D - iabs b) + D * (b * W) + r := by
  unfold Stats.update_value
  have h : D * Int.tdiv (e * iabs b) D = e * iabs b - r := by omega
  calc D * (e + (b * W - Int.tdiv (e * iabs b) D))
      = D * e + D * (b * W) - D * Int.tdiv (e * iabs b) D := by ring
    _ = D * e + D * (b * W) - (e * iabs b - r) := by rw [h]
    _ = e * (D - iabs b) + D * (b * W) + r := by ring

theorem update_value_le (W D e b : Int) (hD : 1 ≤ D)
    (he : iabs e ≤ W * D) (hb : iabs b ≤ D) :
    Stats.update_value W D e b ≤ W * D := by
  obtain ⟨r, hr, -, hr2, -, -⟩ := tdiv_spec (e * iabs b) D (by omega)
  have hW0 := weight_nonneg W D e hD he
  have he2 := (iabs_le_iff e (W * D)).1 he
  have hba : b ≤ iabs b := by unfold iabs; split <;> omega
  have key := update_value_scaled W D e b r hr
  have h1 : e * (D - iabs b) ≤ W * D * (D - iabs b) :=
    mul_le_mul_of_nonneg_right he2.2 (by omega)
  have h2 : D * (b * W) ≤ D * (iabs b * W) :=
    mul_le_mul_of_nonneg_left (mul_le_mul_of_nonneg_right hba hW0) (by omega)
  have h3 : D * Stats.update_value W D e b < D * (W * D + 1) := by
    have : W * D * (D - iabs b) + D * (iabs b * W) + D = D * (W * D + 1) := by ring
    omega
  have := lt_of_mul_lt_mul_left h3 (by omega : (0 : Int) ≤ D)
  omega

theorem update_value_ge (W D e b : Int) (hD : 1 ≤ D)
    (he : iabs e ≤ W * D) (hb : iabs b ≤ D) :
    -(W * D) ≤ Stats.update_value W D e b := by
  obtain ⟨r, hr, hr1, -, -, -⟩ := tdiv_spec (e * iabs b) D (by omega)
  have hW0 := weight_nonneg W D e hD he
  have he2 := (iabs_le_iff e (W * D)).1 he
  have hba : -iabs b ≤ b := by unfold iabs; split <;> omega
  have key := update_value_scaled W D e b r hr
  have h1 : -(W * D) * (D - iabs b) ≤ e * (D - iabs b) :=
    mul_le_mul_of_nonneg_right he2.1 (by omega)
  have h2 : D * (-iabs b * W) ≤ D * (b * W) :=
    mul_le_mul_of_nonneg_left (mul_le_mul_of_nonneg_right hba hW0) (by omega)
  have h3 : D * (-(W * D) - 1) < D * Stats.update_value W D e b := by
    have : -(W * D) * (D - iabs b) + D * (-iabs b * W) - D = D * (-(W * D) - 1) := by ring
    omega
  have := lt_of_mul_lt_mul_left h3 (by omega : (0 : Int) ≤ D)
  omega

theorem update_value_bound (W D e b : Int) (hD : 1 ≤ D)
    (he : iabs e ≤ W * D) (hb : iabs b ≤ D) :
    iabs (Stats.update_value W D e b) ≤ W * D :=
  (iabs_le_iff _ _).2 ⟨update_value_ge W D e b hD he hb, update_value_le W D e b hD he hb⟩

theorem foldl_update_value_bound (W D : Int) (hD : 1 ≤ D) (bs : List Int) :
    ∀ e : Int, iabs e ≤ W * D → (∀ b ∈ bs, iabs b ≤ D) →
      iabs (bs.foldl (Stats.update_value W D) e) ≤ W * D := by
  induction bs with
  | nil => intro e he _; simpa using he
  | cons b bs ih =>
    intro e he hbs
    rw [List.foldl_cons]
    exact ih _ (update_value_bound W D e b hD he (hbs b (List.mem_cons_self _ _)))
      (fun c hc => hbs c (List.mem_cons_of_mem _ hc))

/-- On an `int16_t` table that passes the second assertion, an update of an
in-range entry by an admissible bonus overflows nowhere and stores the exact value. -/
theorem update_eq_ok (W D e b : Int) (hW : 1 ≤ W) (hD : 1 ≤ D) (hWD : W * D < 32767)
    (he : iabs e ≤ W * D) (hb : iabs b ≤ D) :
    (fitsInt (b * W) = true ∧ fitsInt (e * iabs b) = true ∧
      fitsInt (Int.tdiv (e * iabs b) D) = true ∧
      fitsInt (b * W - Int.tdiv (e * iabs b) D) = true ∧
      fitsInt (e + (b * W - Int.tdiv (e * iabs b) D)) = true) ∧
    Stats.update W D e b = .ok (Stats.update_value W D e b) := by
  have hub := update_value_le W D e b hD he hb
  have hlb := update_value_ge W D e b hD he hb
  have he2 := (iabs_le_iff e (W * D)).1 he
  have hb2 := (iabs_le_iff b D).1 hb
  have ha0 := iabs_nonneg b
  have hDW : D ≤ W * D := by nlinarith
  have h1u : b * W ≤ D * W := mul_le_mul_of_nonneg_right hb2.2 (by omega)
  have h1l : -(D * W) ≤ b * W := by
    have := mul_le_mul_of_nonneg_right hb2.1 (by omega : (0 : Int) ≤ W)
    rwa [neg_mul] at this
  have hcomm : D * W = W * D := mul_comm D W
  have h2u : e * iabs b ≤ 32767 * 32767 := by nlinarith
  have h2l : -(32767 * 32767) ≤ e * iabs b := by nlinarith
  have hval : Stats.update_value W D e b = e + (b * W - Int.tdiv (e * iabs b) D) := rfl
  have f1 : fitsInt (b * W) = true := (fitsInt_iff _).2 ⟨by omega, by omega⟩
  have f2 : fitsInt (e * iabs b) = true := (fitsInt_iff _).2 ⟨by omega, by omega⟩
  have f3 : fitsInt (Int.tdiv (e * iabs b) D) = true := (fitsInt_iff _).2 ⟨by omega, by omega⟩
  have f4 : fitsInt (b * W - Int.tdiv (e * iabs b) D) = true :=
    (fitsInt_iff _).2 ⟨by omega, by omega⟩
  have f5 : fitsInt (e + (b * W - Int.tdiv (e * iabs b) D)) = true :=
    (fitsInt_iff _).2 ⟨by omega, by omega⟩
  have f0 : fitsInt (iabs b) = true := (fitsInt_iff _).2 ⟨by omega, by omega⟩
  refine ⟨⟨f1, f2, f3, f4, f5⟩, ?_⟩
  have hst : toInt16 (e + (b * W - Int.tdiv (e * iabs b) D)) =
      e + (b * W - Int.tdiv (e * iabs b) D) := toInt16_of_fits _ (by omega) (by omega)
  have hr : iabs (W * D) < INT16_MAX := by
    have : iabs (W * D) = W * D := by unfold iabs; split <;> omega
    rw [this]; exact hWD
  have hD0 : D ≠ 0 := by omega
  have hfin : iabs (e + (b * W - Int.tdiv (e * iabs b) D)) ≤ W * D :=
    (iabs_le_iff _ _).2 ⟨by omega, by omega⟩
  simp [Stats.update, f0, f1, f2, f3, f4, f5, hb, hr, hD0, hst, hfin, hval]


theorem updates_eq_ok (W D : Int) (hW : 1 ≤ W) (hD : 1 ≤ D) (hWD : W * D < 32767)
    (bs : List Int) : ∀ e : Int, iabs e ≤ W * D → (∀ b ∈ bs, iabs b ≤ D) →
      Stats.updates W D e bs = .ok (bs.foldl (Stats.update_value W D) e) := by
  induction bs with
  | nil => intro e _ _; rfl
  | cons b bs ih =>
    intro e he hbs
    have hb := hbs b (List.mem_cons_self _ _)
    rw [Stats.updates, (update_eq_ok W D e b hW hD hWD he hb).2, List.foldl_cons]
    exact ih _ (update_value_bound W D e b hD he hb)
      (fun c hc => hbs c (List.mem_cons_of_mem _ hc))

/-- On a table that fails the second assertion no update reaches the last one. -/
theorem update_ne_assert_entry_of_large (W D e b : Int) (hWD : ¬ W * D < 32767) (hD : 1 ≤ D)
    (hW : 1 ≤ W) : Stats.update W D e b ≠ .error .assert_entry := by
  have hpos : 0 ≤ W * D := by positivity
  have hr : ¬ (iabs (W * D) < INT16_MAX) := by
    have : iabs (W * D) = W * D := by unfold iabs; split <;> omega
    rw [this]; exact hWD
  unfold Stats.update
  split
  · simp
  · split
    · simp
    · simp [hr]

theorem updates_ne_assert_entry_of_large (W D : Int) (hWD : ¬ W * D < 32767) (hD : 1 ≤ D)
    (hW : 1 ≤ W) (e : Int) (bs : List Int) :
    Stats.updates W D e bs ≠ .error .assert_entry := by
  cases bs with
  | nil => simp [Stats.updates]
  | cons b bs =>
    have h := update_ne_assert_entry_of_large W D e b hWD hD hW
    have hr : ¬ (iabs (W * D) < INT16_MAX) := by
      have hpos : 0 ≤ W * D := by positivity
      have : iabs (W * D) = W * D := by unfold iabs; split <;> omega
      rw [this]; exact hWD
    have h2 : ∀ x, Stats.update W D e b ≠ .ok x := by
      intro x
      unfold Stats.update
      split
      · simp
      · split
        · simp
        · simp [hr]
    rw [Stats.updates]
    cases hu : Stats.update W D e b with
    | ok x => exact absurd hu (h2 x)
    | error f =>
      simp only
      intro hf
      rw [hu] at h
      exact h hf

theorem update_value_max_bonus (W D e : Int) (hD : 1 ≤ D) :
    Stats.update_value W D e D = W * D := by
  have ha : iabs D = D := by unfold iabs; split <;> omega
  unfold Stats.update_value
  rw [ha, Int.mul_tdiv_cancel e (by omega : D ≠ 0)]
  ring

theorem update_value_min_bonus (W D e : Int) (hD : 1 ≤ D) :
    Stats.update_value W D e (-D) = -(W * D) := by
  have ha : iabs (-D) = D := by unfold iabs; split <;> omega
  unfold Stats.update_value
  rw [ha, Int.mul_tdiv_cancel e (by omega : D ≠ 0)]
  ring

/-! ## Claims on the update rule -/

/-- C1. Bound invariant of `Stats::update`: on a table with `W >= 1` and
`D >= 1`, an entry of magnitude at most `W*D` updated by a bonus of magnitude at
most `D` again has magnitude at most `W*D`; so after any finite sequence of such
updates the entry is in range, the run of checked `update` calls never stops at
`assert(abs(entry) <= W * D)`, and on a table that passes the second assertion
the run ends with the exact value. -/
theorem C1_update_bound (W D : Int) (hW : 1 ≤ W) (hD : 1 ≤ D) :
    (∀ e b : Int, iabs e ≤ W * D → iabs b ≤ D →
      iabs (Stats.update_value W D e b) ≤ W * D) ∧
    (∀ (e : Int) (bs : List Int), iabs e ≤ W * D → (∀ b ∈ bs, iabs b ≤ D) →
      iabs (bs.foldl (Stats.update_value W D) e) ≤ W * D ∧
      Stats.updates W D e bs ≠ .error .assert_entry ∧
      (W * D < INT16_MAX →
        Stats.updates W D e bs = .ok (bs.foldl (Stats.update_value W D) e))) := by
  refine ⟨fun e b he hb => update_value_bound W D e b hD he hb, ?_⟩
  intro e bs he hbs
  refine ⟨foldl_update_value_bound W D hD bs e he hbs, ?_, ?_⟩
  · by_cases hWD : W * D < 32767
    · rw [updates_eq_ok W D hW hD hWD bs e he hbs]; simp
    · exact updates_ne_assert_entry_of_large W D hWD hD hW e bs
  · intro hWD
    exact updates_eq_ok W D hW hD hWD bs e he hbs

/-- Instance of C1 on `ButterflyBoards`: three updates from the zeroed entry. -/
theorem C1_update_bound_witness :
    iabs ([324, -100, 7].foldl (Stats.update_value 32 324) 0) ≤ 32 * 324 ∧
    Stats.updates 32 324 0 [324, -100, 7] =
      .ok ([324, -100, 7].foldl (Stats.update_value 32 324) 0) :=
  have h := (C1_update_bound 32 324 (by decide) (by decide)).2 0 [324, -100, 7]
    (by decide) (by decide)
  ⟨h.1, h.2.2 (by decide)⟩

/-- C2. On the three score tables (`W=32, D=324`; `W=32, D=936`; `W=2, D=324`;
entries `int16_t`), for an in-range entry and an admissible bonus: `W*D` is
below 32767, every intermediate of `bonus * W - entry * abs(bonus) / D` and the
sum with `entry` fit a 32-bit `int`, the narrowing store does not wrap, and the
checked `update` returns the exact value `e + b*W - trunc(e*|b|/D)`. -/
theorem C2_int16_exact (P : Params)
    (hP : P = ButterflyBoards ∨ P = PieceToBoards ∨ P = CapturePieceToBoards)
    (e b : Int) (he : iabs e ≤ P.W * P.D) (hb : iabs b ≤ P.D) :
    P.W * P.D < INT16_MAX ∧
    (fitsInt (b * P.W) = true ∧ fitsInt (e * iabs b) = true ∧
      fitsInt (Int.tdiv (e * iabs b) P.D) = true ∧
      fitsInt (b * P.W - Int.tdiv (e * iabs b) P.D) = true ∧
      fitsInt (e + (b * P.W - Int.tdiv (e * iabs b) P.D)) = true) ∧
    toInt16 (Stats.update_value P.W P.D e b) = Stats.update_value P.W P.D e b ∧
    Stats.update P.W P.D e b = .ok (Stats.update_value P.W P.D e b) := by
  have hcases : 1 ≤ P.W ∧ 1 ≤ P.D ∧ P.W * P.D < 32767 := by
    rcases hP with h | h | h <;> subst h <;> decide
  obtain ⟨hW, hD, hWD⟩ := hcases
  have h := update_eq_ok P.W P.D e b hW hD hWD he hb
  have hub := update_value_le P.W P.D e b hD he hb
  have hlb := update_value_ge P.W P.D e b hD he hb
  exact ⟨hWD, h.1, toInt16_of_fits _ (by omega) (by omega), h.2⟩

/-- Instance of C2 on `PieceToBoards` at the entry `-29952 = -W*D` and bonus `935`. -/
theorem C2_int16_exact_witness :
    PieceToBoards.W * PieceToBoards.D < INT16_MAX ∧
    (fitsInt (935 * PieceToBoards.W) = true ∧ fitsInt (-29952 * iabs 935) = true ∧
      fitsInt (Int.tdiv (-29952 * iabs 935) PieceToBoards.D) = true ∧
      fitsInt (935 * PieceToBoards.W - Int.tdiv (-29952 * iabs 935) PieceToBoards.D) = true ∧
      fitsInt (-29952 + (935 * PieceToBoards.W -
        Int.tdiv (-29952 * iabs 935) PieceToBoards.D)) = true) ∧
    toInt16 (Stats.update_value PieceToBoards.W PieceToBoards.D (-29952) 935) =
      Stats.update_value PieceToBoards.W PieceToBoards.D (-29952) 935 ∧
    Stats.update PieceToBoards.W PieceToBoards.D (-29952) 935 =
      .ok (Stats.update_value PieceToBoards.W PieceToBoards.D (-29952) 935) :=
  C2_int16_exact PieceToBoards (Or.inr (Or.inl rfl)) (-29952) 935 (by decide) (by decide)

/-- C3. A zero bonus is a no-op: on a table with `D >= 1` the rule maps every
entry `e` and bonus `0` to `e`; the narrowing store writes `e` back for every
`int16_t` value, and the checked `update` returns `e` for an in-range entry. -/
theorem C3_zero_bonus (W D e : Int) (hD : 1 ≤ D) :
    Stats.update_value W D e 0 = e ∧
    (fitsInt16 e = true → toInt16 (Stats.update_value W D e 0) = e) ∧
    (iabs (W * D) < INT16_MAX → iabs e ≤ W * D → Stats.update W D e 0 = .ok e) := by
  have hv : Stats.update_value W D e 0 = e := by
    simp [Stats.update_value, iabs]
  refine ⟨hv, ?_, ?_⟩
  · intro h
    rw [hv]
    simp only [fitsInt16, INT16_MIN, INT16_MAX, Bool.and_eq_true, decide_eq_true_eq] at h
    exact toInt16_of_fits e h.1 h.2
  · intro hr he
    have he2 := (iabs_le_iff e (W * D)).1 he
    have hr2 : W * D < 32767 := by
      have : W * D ≤ iabs (W * D) := by unfold iabs; split <;> omega
      simp only [INT16_MAX] at hr; omega
    have hD0 : D ≠ 0 := by omega
    have hst : toInt16 e = e := toInt16_of_fits e (by omega) (by omega)
    have hfe : fitsInt e = true := (fitsInt_iff e).2 ⟨by omega, by omega⟩
    have hz : iabs 0 = 0 := rfl
    have hf0 : fitsInt 0 = true := by decide
    have hD' : (0 : Int) ≤ D := by omega
    simp [Stats.update, hz, hf0, hr, hD0, hfe, hst, he, hD']

/-- Instance of C3 on `CapturePieceToBoards` at the entry `-648`. -/
theorem C3_zero_bonus_witness :
    Stats.update_value 2 324 (-648) 0 = -648 ∧
    toInt16 (Stats.update_value 2 324 (-648) 0) = -648 ∧
    Stats.update 2 324 (-648) 0 = .ok (-648) :=
  have h := C3_zero_bonus 2 324 (-648) (by decide)
  ⟨h.1, h.2.1 (by decide), h.2.2 (by decide) (by decide)⟩

/-- C4. From an in-range entry, repeating the maximum positive bonus `D` gives
a non-decreasing sequence with every term at most `W*D`; repeating `-D` gives a
non-increasing sequence with every term at least `-W*D`. -/
theorem C4_repeated_extreme_bonus (W D e0 : Int) (hD : 1 ≤ D) (he : iabs e0 ≤ W * D) :
    (∀ n : Nat,
      Stats.iterate_update W D D e0 n ≤ Stats.iterate_update W D D e0 (n + 1) ∧
      Stats.iterate_update W D D e0 n ≤ W * D) ∧
    (∀ n : Nat,
      Stats.iterate_update W D (-D) e0 (n + 1) ≤ Stats.iterate_update W D (-D) e0 n ∧
      -(W * D) ≤ Stats.iterate_update W D (-D) e0 n) := by
  have he2 := (iabs_le_iff e0 (W * D)).1 he
  have up : ∀ n : Nat, Stats.iterate_update W D D e0 n ≤ W * D := by
    intro n
    cases n with
    | zero => exact he2.2
    | succ n => rw [Stats.iterate_update, update_value_max_bonus W D _ hD]
  have dn : ∀ n : Nat, -(W * D) ≤ Stats.iterate_update W D (-D) e0 n := by
    intro n
    cases n with
    | zero => exact he2.1
    | succ n => rw [Stats.iterate_update, update_value_min_bonus W D _ hD]
  refine ⟨fun n => ⟨?_, up n⟩, fun n => ⟨?_, dn n⟩⟩
  · rw [Stats.iterate_update, update_value_max_bonus W D _ hD]; exact up n
  · rw [Stats.iterate_update, update_value_min_bonus W D _ hD]; exact dn n

/-- Instance of C4 on `ButterflyBoards` from the entry `-5000`, at the first step. -/
theorem C4_repeated_extreme_bonus_witness :
    (Stats.iterate_update 32 324 324 (-5000) 0 ≤ Stats.iterate_update 32 324 324 (-5000) 1 ∧
      Stats.iterate_update 32 324 324 (-5000) 0 ≤ 32 * 324) ∧
    (Stats.iterate_update 32 324 (-324) (-5000) 1 ≤
        Stats.iterate_update 32 324 (-324) (-5000) 0 ∧
      -(32 * 324) ≤ Stats.iterate_update 32 324 (-324) (-5000) 0) :=
  have h := C4_repeated_extreme_bonus 32 324 (-5000) (by decide) (by decide)
  ⟨h.1 0, h.2 0⟩

/-! ## Layout of the `Stats` array -/

open Stats

theorem sizeof_Stats_eq (s : Nat) (dims : List Nat) : sizeof_Stats s dims = cells dims * s := by
  induction dims with
  | nil => simp [sizeof_Stats, cells]
  | cons n ds ih => simp [sizeof_Stats, cells, ih, Nat.mul_assoc]

theorem front_eq_zero (dims : List Nat) : front dims = 0 := by
  induction dims with
  | nil => rfl
  | cons n ds ih =>
    cases ds with
    | nil => rfl
    | cons d ds => simpa [front] using ih

theorem offset_lt (dims : List Nat) : ∀ key, in_range dims key = true → offset dims key < cells dims := by
  induction dims with
  | nil => intro key h; cases key <;> simp_all [in_range, offset, cells]
  | cons n ds ih =>
    intro key h
    cases key with
    | nil => simp [in_range] at h
    | cons k ks =>
      simp only [in_range, Bool.and_eq_true, decide_eq_true_eq] at h
      have h1 := ih ks h.2
      simp only [offset, cells]
      calc k * cells ds + offset ds ks < k * cells ds + cells ds := by omega
        _ = (k + 1) * cells ds := by ring
        _ ≤ n * cells ds := Nat.mul_le_mul_right _ h.1

theorem offset_inj (dims : List Nat) : ∀ key key', in_range dims key = true → in_range dims key' = true →
    offset dims key = offset dims key' → key = key' := by
  induction dims with
  | nil => intro key key' h h' _; cases key <;> cases key' <;> simp_all [in_range]
  | cons n ds ih =>
    intro key key' h h' he
    cases key with
    | nil => simp [in_range] at h
    | cons k ks =>
      cases key' with
      | nil => simp [in_range] at h'
      | cons k' ks' =>
        simp only [in_range, Bool.and_eq_true, decide_eq_true_eq] at h h'
        have h1 := offset_lt ds ks h.2
        have h2 := offset_lt ds ks' h'.2
        simp only [offset] at he
        have hk : k = k' := by
          rcases Nat.lt_trichotomy k k' with hlt | heq | hgt
          · exfalso
            have : (k + 1) * cells ds ≤ k' * cells ds := Nat.mul_le_mul_right _ hlt
            have e : (k + 1) * cells ds = k * cells ds + cells ds := by ring
            omega
          · exact heq
          · exfalso
            have : (k' + 1) * cells ds ≤ k * cells ds := Nat.mul_le_mul_right _ hgt
            have e : (k' + 1) * cells ds = k' * cells ds + cells ds := by ring
            omega
        subst hk
        have := ih ks ks' h.2 h'.2 (by omega)
        rw [this]

theorem std_fill_length {T : Type} (n : Nat) : ∀ (mem : List T) (first : Nat) (v : T),
    (std_fill mem first n v).length = mem.length := by
  induction n with
  | zero => intro mem first v; rfl
  | succ n ih => intro mem first v; simp [std_fill, ih]

theorem std_fill_getElem? {T : Type} (n : Nat) : ∀ (mem : List T) (first : Nat) (v : T) (i : Nat),
    i < mem.length →
    (std_fill mem first n v)[i]? = if first ≤ i ∧ i < first + n then some v else mem[i]? := by
  induction n with
  | zero =>
    intro mem first v i _
    have : ¬ (first ≤ i ∧ i < first) := by omega
    simp [std_fill, this]
  | succ n ih =>
    intro mem first v i hi
    rw [std_fill, ih _ _ _ _ (by simpa using hi)]
    by_cases h1 : first = i
    · subst h1
      simp [hi]
    · rw [List.getElem?_set_ne h1]
      by_cases h2 : first ≤ i
      · have : first + 1 ≤ i := by omega
        simp [this, h2]
        congr 1
        apply propext; omega
      · have : ¬ (first + 1 ≤ i) := by omega
        simp [this, h2]

/-- After `fill(v)` on an object of the right length every cell holds `v`. -/
theorem fill_getElem? {T : Type} (sizeofT : Nat) (hs : 0 < sizeofT) (dims : List Nat)
    (mem : List T) (hlen : mem.length = cells dims) (v : T) (i : Nat) (hi : i < cells dims) :
    (fill sizeofT dims mem v)[i]? = some v := by
  unfold fill
  simp only
  rw [sizeof_Stats_eq, Nat.mul_div_cancel _ hs, front_eq_zero,
    std_fill_getElem? _ _ _ _ _ (by omega)]
  simp [hi]

theorem lookup_set_self {T : Type} (dims : List Nat) (mem : List T) (key : List Nat) (v : T)
    (hlen : mem.length = cells dims) (hk : in_range dims key = true) :
    lookup dims (mem.set (offset dims key) v) key = some v := by
  have := offset_lt dims key hk
  simp [lookup, hk, List.getElem?_set_self, hlen, this]

theorem lookup_set_other {T : Type} (dims : List Nat) (mem : List T) (key key' : List Nat)
    (v : T) (hk : in_range dims key = true) (hne : key' ≠ key) :
    lookup dims (mem.set (offset dims key) v) key' = lookup dims mem key' := by
  unfold lookup
  by_cases hk' : in_range dims key' = true
  · have : offset dims key ≠ offset dims key' := fun h =>
      hne (offset_inj dims key' key hk' hk h.symm)
    simp [hk', List.getElem?_set_ne this]
  · simp [hk']

theorem lookup_isSome {T : Type} (dims : List Nat) (mem : List T) (key : List Nat)
    (hlen : mem.length = cells dims) (hk : in_range dims key = true) :
    ∃ e, lookup dims mem key = some e := by
  have h := offset_lt dims key hk
  have h2 : offset dims key < mem.length := by omega
  exact ⟨mem[offset dims key], by simp [lookup, hk, List.getElem?_eq_getElem h2]⟩

/-- Effect of `update_at` on an `int16_t` table in the state the assertions ask
for: the keyed entry takes the value of the rule, every other key keeps its entry. -/
theorem update_at_frame (P : Params) (hW : 1 ≤ P.W) (hD : 1 ≤ P.D) (hWD : P.W * P.D < 32767)
    (dims : List Nat) (mem : List Int) (key : List Nat) (bonus e : Int)
    (hlen : mem.length = cells dims) (hk : in_range dims key = true)
    (hlook : lookup dims mem key = some e)
    (he : iabs e ≤ P.W * P.D) (hb : iabs bonus ≤ P.D) :
    ∃ mem', update_at P dims mem key bonus = .ok mem' ∧
      mem'.length = mem.length ∧
      lookup dims mem' key = some (update_value P.W P.D e bonus) ∧
      ∀ key', key' ≠ key → lookup dims mem' key' = lookup dims mem key' := by
  refine ⟨mem.set (offset dims key) (update_value P.W P.D e bonus), ?_, ?_, ?_, ?_⟩
  · simp [update_at, hlook, (update_eq_ok P.W P.D e bonus hW hD hWD he hb).2]
  · simp
  · exact lookup_set_self dims mem key _ hlen hk
  · intro key' hne
    exact lookup_set_other dims mem key key' _ hk hne

/-! ## Claims on the tables -/

/-- C5. `fill(v)` on a `Stats` with two or more axes writes `v` to every leaf:
the count `sizeof(*this) / sizeof(T)` is the product of the axis sizes, the
first leaf reached by `front()` is cell 0, and after `fill(v)` the lookup at
every in-range key gives `v`. -/
theorem C5_fill_all (T : Type) (sizeofT : Nat) (hs : 0 < sizeofT) (dims : List Nat)
    (_hdims : 2 ≤ dims.length) (mem : List T) (hlen : mem.length = cells dims) (v : T) :
    sizeof_Stats sizeofT dims / sizeofT = cells dims ∧
    front dims = 0 ∧
    (fill sizeofT dims mem v).length = cells dims ∧
    (∀ key : List Nat, in_range dims key = true →
      lookup dims (fill sizeofT dims mem v) key = some v) := by
  refine ⟨?_, front_eq_zero dims, ?_, ?_⟩
  · rw [sizeof_Stats_eq, Nat.mul_div_cancel _ hs]
  · unfold fill; simp only; rw [std_fill_length, hlen]
  · intro key hk
    unfold lookup
    rw [if_pos hk]
    exact fill_getElem? sizeofT hs dims mem hlen v _ (offset_lt dims key hk)

/-- Instance of C5: `fill(0)` on a `[2][3][2]` table of two-byte entries, read at `[1][2][1]`. -/
theorem C5_fill_all_witness :
    lookup [2, 3, 2] (fill 2 [2, 3, 2] [1, 2, 3, 4, 5, 6, 7, 8, 9, 10, 11, 12] (0 : Int))
      [1, 2, 1] = some 0 :=
  (C5_fill_all Int 2 (by decide) [2, 3, 2] (by decide)
    [1, 2, 3, 4, 5, 6, 7, 8, 9, 10, 11, 12] (by decide) 0).2.2.2 [1, 2, 1] (by decide)

/-- C6. Each typed update changes exactly the one keyed entry: on a table of
the right shape whose keyed entry `e` is in range, and for an admissible bonus,
`ButterflyHistory::update(c, m, bonus)`, `PieceToHistory::update(pc, to, bonus)`
and `CapturePieceToHistory::update(pc, to, captured, bonus)` succeed, leave the
value of the generic rule (with the table's `W` and `D`) applied to `e` at the
key `[c][from_to(m)]`, `[pc][to]`, `[pc][to][captured]`, and leave the entry at
every other key as it was. -/
theorem C6_typed_update_frame (S : Sizes) (from_to : Move → Nat) :
    (∀ (t : List Int) (c : Nat) (m : Move) (bonus e : Int),
      t.length = cells (ButterflyBoards.dims S) →
      in_range (ButterflyBoards.dims S) [c, from_to m] = true →
      lookup (ButterflyBoards.dims S) t [c, from_to m] = some e →
      iabs e ≤ 32 * 324 → iabs bonus ≤ 324 →
      ∃ t', ButterflyHistory.update S from_to t c m bonus = .ok t' ∧
        lookup (ButterflyBoards.dims S) t' [c, from_to m] =
          some (update_value 32 324 e bonus) ∧
        ∀ key', key' ≠ [c, from_to m] →
          lookup (ButterflyBoards.dims S) t' key' = lookup (ButterflyBoards.dims S) t key') ∧
    (∀ (t : List Int) (pc to_ : Nat) (bonus e : Int),
      t.length = cells (PieceToBoards.dims S) →
      in_range (PieceToBoards.dims S) [pc, to_] = true →
      lookup (PieceToBoards.dims S) t [pc, to_] = some e →
      iabs e ≤ 32 * 936 → iabs bonus ≤ 936 →
      ∃ t', PieceToHistory.update S t pc to_ bonus = .ok t' ∧
        lookup (PieceToBoards.dims S) t' [pc, to_] = some (update_value 32 936 e bonus) ∧
        ∀ key', key' ≠ [pc, to_] →
          lookup (PieceToBoards.dims S) t' key' = lookup (PieceToBoards.dims S) t key') ∧
    (∀ (t : List Int) (pc to_ captured : Nat) (bonus e : Int),
      t.length = cells (CapturePieceToBoards.dims S) →
      in_range (CapturePieceToBoards.dims S) [pc, to_, captured] = true →
      lookup (CapturePieceToBoards.dims S) t [pc, to_, captured] = some e →
      iabs e ≤ 2 * 324 → iabs bonus ≤ 324 →
      ∃ t', CapturePieceToHistory.update S t pc to_ captured bonus = .ok t' ∧
        lookup (CapturePieceToBoards.dims S) t' [pc, to_, captured] =
          some (update_value 2 324 e bonus) ∧
        ∀ key', key' ≠ [pc, to_, captured] →
          lookup (CapturePieceToBoards.dims S) t' key' =
            lookup (CapturePieceToBoards.dims S) t key') := by
  refine ⟨?_, ?_, ?_⟩
  · intro t c m bonus e hlen hk hlook he hb
    obtain ⟨t', h1, -, h2, h3⟩ := update_at_frame ButterflyBoards (by decide) (by decide)
      (by decide) (ButterflyBoards.dims S) t [c, from_to m] bonus e hlen hk hlook he hb
    exact ⟨t', h1, h2, h3⟩
  · intro t pc to_ bonus e hlen hk hlook he hb
    obtain ⟨t', h1, -, h2, h3⟩ := update_at_frame PieceToBoards (by decide) (by decide)
      (by decide) (PieceToBoards.dims S) t [pc, to_] bonus e hlen hk hlook he hb
    exact ⟨t', h1, h2, h3⟩
  · intro t pc to_ captured bonus e hlen hk hlook he hb
    obtain ⟨t', h1, -, h2, h3⟩ := update_at_frame CapturePieceToBoards (by decide) (by decide)
      (by decide) (CapturePieceToBoards.dims S) t [pc, to_, captured] bonus e hlen hk hlook
      he hb
    exact ⟨t', h1, h2, h3⟩

/-- Instance of C6: a `[2][2][2]` capture table, updated at `[1][0][1]` with
bonus `-324`, read back at the key and at `[0][1][1]`. -/
theorem C6_typed_update_frame_witness :
    ∃ t', CapturePieceToHistory.update ⟨2, 2, 2, 2⟩ [0, 10, 20, 30, 40, 50, 60, 70] 1 0 1
        (-324) = .ok t' ∧
      lookup (CapturePieceToBoards.dims ⟨2, 2, 2, 2⟩) t' [1, 0, 1] =
        some (update_value 2 324 50 (-324)) ∧
      lookup (CapturePieceToBoards.dims ⟨2, 2, 2, 2⟩) t' [0, 1, 1] =
        lookup (CapturePieceToBoards.dims ⟨2, 2, 2, 2⟩) [0, 10, 20, 30, 40, 50, 60, 70]
          [0, 1, 1] :=
  match (C6_typed_update_frame ⟨2, 2, 2, 2⟩ (fun m => m % 4)).2.2
    [0, 10, 20, 30, 40, 50, 60, 70] 1 0 1 (-324) 50 (by decide) (by decide) (by decide)
    (by decide) (by decide) with
  | ⟨t', h1, h2, h3⟩ => ⟨t', h1, h2, h3 [0, 1, 1] (by decide)⟩

/-- C7. CounterMove table: after the store for key `(pc, sq)` with move `m` on
a table of the right shape, the lookup at `(pc, sq)` gives `m`; the same store
again leaves the table as it is; the entry at every other key is unchanged. -/
theorem C7_countermove_store (S : Sizes) (t : List Move) (pc sq : Nat) (m : Move)
    (hlen : t.length = cells (CounterMoveHistory.dims S))
    (hk : in_range (CounterMoveHistory.dims S) [pc, sq] = true) :
    ∃ t', CounterMoveHistory.store S t pc sq m = .ok t' ∧
      lookup (CounterMoveHistory.dims S) t' [pc, sq] = some m ∧
      CounterMoveHistory.store S t' pc sq m = .ok t' ∧
      ∀ key', key' ≠ [pc, sq] →
        lookup (CounterMoveHistory.dims S) t' key' =
          lookup (CounterMoveHistory.dims S) t key' := by
  refine ⟨t.set (offset (CounterMoveHistory.dims S) [pc, sq]) m, ?_, ?_, ?_, ?_⟩
  · simp [CounterMoveHistory.store, hk]
  · exact lookup_set_self _ t _ m hlen hk
  · simp [CounterMoveHistory.store, hk]
  · intro key' hne
    exact lookup_set_other _ t _ key' m hk hne

/-- Instance of C7: a `[2][3]` table, the move `77` stored at `[1][2]`, read
back at the key and at `[0][2]`. -/
theorem C7_countermove_store_witness :
    ∃ t', CounterMoveHistory.store ⟨2, 3, 2, 2⟩ [0, 0, 5, 0, 0, 9] 1 2 77 = .ok t' ∧
      lookup (CounterMoveHistory.dims ⟨2, 3, 2, 2⟩) t' [1, 2] = some 77 ∧
      CounterMoveHistory.store ⟨2, 3, 2, 2⟩ t' 1 2 77 = .ok t' ∧
      lookup (CounterMoveHistory.dims ⟨2, 3, 2, 2⟩) t' [0, 2] =
        lookup (CounterMoveHistory.dims ⟨2, 3, 2, 2⟩) [0, 0, 5, 0, 0, 9] [0, 2] :=
  match C7_countermove_store ⟨2, 3, 2, 2⟩ [0, 0, 5, 0, 0, 9] 1 2 77 (by decide)
    (by decide) with
  | ⟨t', h1, h2, h3, h4⟩ => ⟨t', h1, h2, h3, h4 [0, 2] (by decide)⟩

/-! ## Lazy selection -/

namespace MovePicker

theorem best_from_spec (xs : List ExtMove) : ∀ (b : ExtMove) (bi j : Nat),
    (best_from b bi j xs = bi ∧ ∀ z ∈ xs, z.value ≤ b.value) ∨
    (∃ k y, best_from b bi j xs = j + k ∧ xs[k]? = some y ∧ b.value < y.value ∧
      ∀ z ∈ xs, z.value ≤ y.value) := by
  induction xs with
  | nil => intro b bi j; left; simp [best_from]
  | cons x xs ih =>
    intro b bi j
    by_cases h : b.value < x.value
    · rcases ih x j (j + 1) with ⟨h1, h2⟩ | ⟨k, y, h1, h2, h3, h4⟩
      · right
        refine ⟨0, x, by simp [best_from, h, h1], by simp, h, ?_⟩
        intro z hz
        rcases List.mem_cons.1 hz with rfl | hz
        · exact le_refl _
        · exact h2 z hz
      · right
        refine ⟨k + 1, y, ?_, by simpa using h2, lt_trans h h3, ?_⟩
        · simp [best_from, h, h1]; omega
        · intro z hz
          rcases List.mem_cons.1 hz with rfl | hz
          · exact le_of_lt h3
          · exact h4 z hz
    · rcases ih b bi (j + 1) with ⟨h1, h2⟩ | ⟨k, y, h1, h2, h3, h4⟩
      · left
        refine ⟨by simp [best_from, h, h1], ?_⟩
        intro z hz
        rcases List.mem_cons.1 hz with rfl | hz
        · exact not_lt.1 h
        · exact h2 z hz
      · right
        refine ⟨k + 1, y, ?_, by simpa using h2, h3, ?_⟩
        · simp [best_from, h, h1]; omega
        · intro z hz
          rcases List.mem_cons.1 hz with rfl | hz
          · exact le_trans (not_lt.1 h) (le_of_lt h3)
          · exact h4 z hz

theorem perm_set_swap (xs : List ExtMove) : ∀ (k : Nat) (x y : ExtMove), xs[k]? = some y →
    (y :: xs.set k x).Perm (x :: xs) := by
  induction xs with
  | nil => intro k x y h; simp at h
  | cons a xs ih =>
    intro k x y h
    cases k with
    | zero =>
      simp at h
      subst h
      simp only [List.set_cons_zero]
      exact List.Perm.swap _ _ _
    | succ k =>
      simp only [List.getElem?_cons_succ] at h
      simp only [List.set_cons_succ]
      have h1 := ih k x y h
      calc (y :: a :: xs.set k x).Perm (a :: y :: xs.set k x) := List.Perm.swap _ _ _
        _ |>.Perm (a :: x :: xs) := List.Perm.cons a h1
        _ |>.Perm (x :: a :: xs) := List.Perm.swap _ _ _

theorem pick_best_nil : pick_best [] = none := rfl

/-- Lazy selection on a non-empty range returns an element of maximal score and
leaves the other elements, in some order. -/
theorem pick_best_cons (x : ExtMove) (xs : List ExtMove) :
    ∃ y rest, pick_best (x :: xs) = some (y, rest) ∧ (y :: rest).Perm (x :: xs) ∧
      ∀ z ∈ rest, z.value ≤ y.value := by
  rcases best_from_spec xs x 0 1 with ⟨h1, h2⟩ | ⟨k, y, h1, h2, h3, h4⟩
  · refine ⟨x, xs, ?_, List.Perm.refl _, h2⟩
    simp [pick_best, best_index, h1, swap_front]
  · refine ⟨y, xs.set k x, ?_, perm_set_swap xs k x y h2, ?_⟩
    · have : best_from x 0 1 xs = k + 1 := by omega
      simp [pick_best, best_index, this, swap_front, h2]
    · intro z hz
      rcases List.mem_or_eq_of_mem_set hz with hz | rfl
      · exact h4 z hz
      · exact le_of_lt h3

theorem pick_best_some (buf : List ExtMove) (y : ExtMove) (rest : List ExtMove)
    (h : pick_best buf = some (y, rest)) :
    (y :: rest).Perm buf ∧ ∀ z ∈ rest, z.value ≤ y.value := by
  cases buf with
  | nil => simp [pick_best_nil] at h
  | cons x xs =>
    obtain ⟨y', rest', h1, h2, h3⟩ := pick_best_cons x xs
    rw [h1] at h
    simp only [Option.some.injEq, Prod.mk.injEq] at h
    obtain ⟨rfl, rfl⟩ := h
    exact ⟨h2, h3⟩

end MovePicker

/-! ## The hash move is served once -/

namespace MovePicker

theorem tt_kept_exhausted (p : MovePicker) (h : tt_done p) : tt_kept p (do_exhausted p) := by
  obtain ⟨h1, h2, h3⟩ := h
  refine ⟨fun e => h1 e.symm, rfl, ⟨h1, h2, h3⟩, ?_, ?_⟩ <;> simp [do_exhausted]

theorem skip_served_subset (served bad : List Move) :
    ∀ x ∈ skip_served served bad, x ∈ bad := by
  induction bad with
  | nil => intro x hx; simp [skip_served] at hx
  | cons m rest ih =>
    intro x hx
    unfold skip_served at hx
    split at hx
    · exact List.mem_cons_of_mem _ (ih x hx)
    · exact hx

theorem tt_kept_bad (p : MovePicker) (h : tt_done p) : tt_kept p (do_bad_captures p) := by
  unfold do_bad_captures
  split
  · rename_i m rest hb
    have hsub : ∀ x ∈ m :: rest, x ∈ p.bad :=
      fun x hx => skip_served_subset _ _ x (hb ▸ hx)
    obtain ⟨h1, h2, h3⟩ := h
    have hm : m ≠ p.ttMove := fun e => h3 (e ▸ hsub m (List.mem_cons_self _ _))
    have hrest : p.ttMove ∉ rest := fun hin => h3 (hsub _ (List.mem_cons_of_mem _ hin))
    refine ⟨hm, rfl, ⟨h1, ?_, hrest⟩, ?_, ?_⟩ <;> simp [serve, h2]
  · exact tt_kept_exhausted p h

theorem tt_kept_of_cur (p q : MovePicker) (r : Move × MovePicker) (h : tt_kept q r)
    (ht : q.ttMove = p.ttMove) : tt_kept p r := by
  unfold tt_kept at *
  rw [← ht]; exact h

theorem tt_kept_quiets (p : MovePicker) (f : Bool) (h : tt_done p)
    (hc : ∀ x ∈ p.cur, x.move ≠ p.ttMove) : tt_kept p (do_quiets p f) := by
  unfold do_quiets
  have hb : tt_kept p (do_bad_captures { p with cur := [] }) :=
    tt_kept_of_cur p _ _ (tt_kept_bad { p with cur := [] } h) rfl
  split
  · exact hb
  · split
    · rename_i x rest hp
      obtain ⟨hperm, -⟩ := pick_best_some _ _ _ hp
      obtain ⟨h1, h2, h3⟩ := h
      have hx : x.move ≠ p.ttMove := hc x (hperm.subset (List.mem_cons_self _ _))
      refine ⟨hx, rfl, ⟨h1, ?_, h3⟩, ?_, ?_⟩
      · simp [serve, h2]
      · simp [serve]
      · intro _ z hz
        exact hc z (hperm.subset (List.mem_cons_of_mem _ hz))
    · exact hb

theorem tt_kept_quiets_init (env : Env) (p : MovePicker) (f : Bool) (h : tt_done p) :
    tt_kept p (do_quiets_init env p f) := by
  unfold do_quiets_init
  split
  · exact tt_kept_of_cur p _ _ (tt_kept_bad { p with cur := [] } h) rfl
  · refine tt_kept_of_cur p _ _ (tt_kept_quiets _ false h ?_) rfl
    intro x hx
    simp only [score, List.mem_map, List.mem_filter, decide_eq_true_eq] at hx
    obtain ⟨m, ⟨-, hm⟩, rfl⟩ := hx
    intro e
    simp only at e
    exact hm (e ▸ h.2.1)

theorem tt_kept_countermove (env : Env) (p : MovePicker) (f : Bool) (h : tt_done p) :
    tt_kept p (do_countermove env p f) := by
  unfold do_countermove
  split
  · rename_i hc
    obtain ⟨h1, h2, h3⟩ := h
    refine ⟨hc.2.1, rfl, ⟨h1, ?_, h3⟩, ?_, ?_⟩ <;> simp [serve, h2]
  · exact tt_kept_quiets_init env p f h

theorem tt_kept_killer1 (env : Env) (p : MovePicker) (f : Bool) (h : tt_done p) :
    tt_kept p (do_killer1 env p f) := by
  unfold do_killer1
  split
  · rename_i hc
    obtain ⟨h1, h2, h3⟩ := h
    refine ⟨hc.2.1, rfl, ⟨h1, ?_, h3⟩, ?_, ?_⟩ <;> simp [serve, h2]
  · exact tt_kept_countermove env p f h

theorem tt_kept_killer0 (env : Env) (p : MovePicker) (f : Bool) (h : tt_done p) :
    tt_kept p (do_killer0 env p f) := by
  unfold do_killer0
  split
  · rename_i hc
    obtain ⟨h1, h2, h3⟩ := h
    refine ⟨hc.2.1, rfl, ⟨h1, ?_, h3⟩, ?_, ?_⟩ <;> simp [serve, h2]
  · exact tt_kept_killer1 env p f h

theorem tt_kept_good (env : Env) (p : MovePicker) (f : Bool) (h : tt_done p)
    (hc : ∀ x ∈ p.cur, x.move ≠ p.ttMove) : tt_kept p (do_good_captures env p f) := by
  unfold do_good_captures
  split
  · rename_i x rest hp
    obtain ⟨hperm, -⟩ := pick_best_some _ _ _ hp
    obtain ⟨h1, h2, h3⟩ := h
    have hx : x.move ≠ p.ttMove := hc x (hperm.subset (List.mem_cons_self _ _))
    refine ⟨hx, rfl, ⟨h1, ?_, h3⟩, ?_, ?_⟩
    · simp [serve, h2]
    · simp [serve]
    · intro _ z hz
      exact hc z (hperm.subset (List.mem_cons_of_mem _ hz))
  · split
    · exact tt_kept_of_cur p _ _ (tt_kept_killer0 env { p with cur := [] } f h) rfl
    · exact tt_kept_exhausted p h

theorem tt_kept_captures_init (env : Env) (p : MovePicker) (f : Bool)
    (h1 : p.ttMove ≠ MOVE_NONE) (h2 : p.ttMove ∈ p.served) :
    tt_kept p (do_captures_init env p f) := by
  unfold do_captures_init
  have hcur : ∀ (g : Move → Bool) (x : ExtMove),
      x ∈ score env.capture_score
        ((env.captures.filter (fun m => m ≠ p.ttMove)).filter g) → x.move ≠ p.ttMove := by
    intro g x hx
    simp only [score, List.mem_map, List.mem_filter, decide_eq_true_eq] at hx
    obtain ⟨m, ⟨⟨-, hm⟩, -⟩, rfl⟩ := hx
    exact hm
  split
  · refine tt_kept_of_cur p _ _ (tt_kept_good env _ f ⟨h1, h2, ?_⟩ (hcur _)) rfl
    simp [List.mem_filter]
  · refine tt_kept_of_cur p _ _ (tt_kept_good env _ f ⟨h1, h2, ?_⟩ (hcur _)) rfl
    simp
  · refine tt_kept_of_cur p _ _ (tt_kept_good env _ f ⟨h1, h2, ?_⟩ (hcur _)) rfl
    simp

/-- A call on a state in which the hash move is past does not return it, and
the hash move is past in the new state too. -/
theorem tt_kept_next_move (env : Env) (p : MovePicker) (f : Bool) (h : tt_past p) :
    tt_kept p (next_move env p f) := by
  obtain ⟨hd, hs, hc⟩ := h
  unfold next_move
  split
  · rename_i hst
    exact absurd hst hs
  · exact tt_kept_captures_init env p f hd.1 hd.2.1
  · rename_i hst
    exact tt_kept_good env p f hd (hc (Or.inl hst))
  · exact tt_kept_killer0 env p f hd
  · exact tt_kept_killer1 env p f hd
  · exact tt_kept_countermove env p f hd
  · exact tt_kept_quiets_init env p f hd
  · rename_i hst
    exact tt_kept_quiets p f hd (hc (Or.inr hst))
  · exact tt_kept_bad p hd
  · exact tt_kept_exhausted p hd

theorem run_not_mem_of_tt_past (env : Env) (fs : List Bool) :
    ∀ p : MovePicker, tt_past p → p.ttMove ∉ (run env p fs).1 := by
  induction fs with
  | nil => intro p _; simp [run]
  | cons f fs ih =>
    intro p hp
    obtain ⟨h1, h2, h3⟩ := tt_kept_next_move env p f hp
    have := ih _ h3
    rw [h2] at this
    simp only [run, List.mem_cons, not_or]
    exact ⟨fun e => h1 e.symm, this⟩

/-- The first call on a fresh picker with a hash move returns the hash move. -/
theorem first_call (env : Env) (m : Move) (hm : m ≠ MOVE_NONE) (p : MovePicker)
    (hp : constructed_with m p) (f : Bool) :
    (next_move env p f).1 = m ∧ (next_move env p f).2.ttMove = m ∧
      tt_past (next_move env p f).2 := by
  have key : p.stage = .hash_move ∧ p.ttMove = m := by
    rcases hp with ⟨cm, k0, k1, rfl⟩ | ⟨v, rfl⟩ | ⟨s, rfl⟩ <;> exact ⟨rfl, rfl⟩
  obtain ⟨hs, ht⟩ := key
  have hne : p.ttMove ≠ MOVE_NONE := ht ▸ hm
  have : next_move env p f = serve p p.ttMove .captures_init [] [] := by
    unfold next_move
    rw [hs]
    simp [do_hash_move, hne]
  rw [this]
  refine ⟨ht, ht, ⟨hne, ?_, ?_⟩, ?_, ?_⟩ <;> simp [serve]

/-- C8. For every environment (position and history state) and every hash move
`m` other than the sentinel, a picker made by any of the three constructors
with hash move `m` returns `m` from its first `next_move` call, and no later
call, whatever its `skipQuiets` flag, returns `m` again. -/
theorem C8_hash_move_first_once (env : Env) (m : Move) (hm : m ≠ MOVE_NONE)
    (p : MovePicker) (hp : constructed_with m p) (f : Bool) (fs : List Bool) :
    ∃ rest, (run env p (f :: fs)).1 = m :: rest ∧ m ∉ rest := by
  obtain ⟨h1, h2, h3⟩ := first_call env m hm p hp f
  refine ⟨(run env (next_move env p f).2 fs).1, ?_, ?_⟩
  · simp [run, h1]
  · have := run_not_mem_of_tt_past env fs _ h3
    rwa [h2] at this

/-- Instance of C8: hash move 12, three captures and three quiets, four calls. -/
theorem C8_hash_move_first_once_witness :
    ∃ rest, (run sample_env (general 12 0 0 0) [false, false, false, false]).1 = 12 :: rest ∧
      12 ∉ rest :=
  C8_hash_move_first_once sample_env 12 (by decide) (general 12 0 0 0)
    (Or.inl ⟨0, 0, 0, rfl⟩) false [false, false, false]

end MovePicker

/-! ## Scores do not increase within a serving stage -/

namespace MovePicker

theorem stage_bad (p : MovePicker) :
    (do_bad_captures p).2.stage ≠ .quiets ∧ (do_bad_captures p).2.stage ≠ .good_captures := by
  unfold do_bad_captures
  split <;> simp [serve, do_exhausted]

theorem stage_quiets_skip (p : MovePicker) :
    (do_quiets p true).2.stage ≠ .quiets := by
  simp only [do_quiets, if_true]
  exact (stage_bad _).1

theorem stage_killer0 (env : Env) (p : MovePicker) (f : Bool) :
    (do_killer0 env p f).2.stage ≠ .good_captures := by
  unfold do_killer0 do_killer1 do_countermove do_quiets_init do_quiets
  split_ifs <;> (try split) <;> first | (simp [serve]; done) | exact (stage_bad _).2

theorem bounded_by_of_stage (env : Env) (r : Move × MovePicker)
    (h1 : r.2.stage ≠ .good_captures) (h2 : r.2.stage ≠ .quiets) : bounded_by env r :=
  ⟨fun h => absurd h h1, fun h => absurd h h2⟩

theorem bounded_by_bad (env : Env) (p : MovePicker) : bounded_by env (do_bad_captures p) :=
  bounded_by_of_stage env _ (stage_bad p).2 (stage_bad p).1

theorem bounded_by_quiets (env : Env) (p : MovePicker) (f : Bool)
    (hc : ∀ z ∈ p.cur, z.value = env.quiet_score z.move) :
    bounded_by env (do_quiets p f) := by
  unfold do_quiets
  split
  · exact bounded_by_bad env _
  · split
    · rename_i x rest hp
      obtain ⟨hperm, hmax⟩ := pick_best_some _ _ _ hp
      refine ⟨by simp [serve], fun _ z hz => ?_⟩
      have hz' : z ∈ rest := hz
      refine ⟨hc z (hperm.subset (List.mem_cons_of_mem _ hz')), ?_⟩
      have hx := hc x (hperm.subset (List.mem_cons_self _ _))
      have := hmax z hz'
      simp only [serve]
      omega
    · exact bounded_by_bad env _

theorem bounded_by_quiets_init (env : Env) (p : MovePicker) (f : Bool) :
    bounded_by env (do_quiets_init env p f) := by
  unfold do_quiets_init
  split
  · exact bounded_by_bad env _
  · apply bounded_by_quiets
    intro z hz
    simp only [score, List.mem_map] at hz
    obtain ⟨m, -, rfl⟩ := hz
    rfl

theorem bounded_by_countermove (env : Env) (p : MovePicker) (f : Bool) :
    bounded_by env (do_countermove env p f) := by
  unfold do_countermove
  split
  · exact bounded_by_of_stage env _ (by simp [serve]) (by simp [serve])
  · exact bounded_by_quiets_init env p f

theorem bounded_by_killer1 (env : Env) (p : MovePicker) (f : Bool) :
    bounded_by env (do_killer1 env p f) := by
  unfold do_killer1
  split
  · exact bounded_by_of_stage env _ (by simp [serve]) (by simp [serve])
  · exact bounded_by_countermove env p f

theorem bounded_by_killer0 (env : Env) (p : MovePicker) (f : Bool) :
    bounded_by env (do_killer0 env p f) := by
  unfold do_killer0
  split
  · exact bounded_by_of_stage env _ (by simp [serve]) (by simp [serve])
  · exact bounded_by_killer1 env p f

theorem bounded_by_good (env : Env) (p : MovePicker) (f : Bool)
    (hc : ∀ z ∈ p.cur, z.value = env.capture_score z.move) :
    bounded_by env (do_good_captures env p f) := by
  unfold do_good_captures
  split
  · rename_i x rest hp
    obtain ⟨hperm, hmax⟩ := pick_best_some _ _ _ hp
    refine ⟨fun _ z hz => ?_, by simp [serve]⟩
    have hz' : z ∈ rest := hz
    refine ⟨hc z (hperm.subset (List.mem_cons_of_mem _ hz')), ?_⟩
    have hx := hc x (hperm.subset (List.mem_cons_self _ _))
    have := hmax z hz'
    simp only [serve]
    omega
  · split
    · exact bounded_by_killer0 env _ f
    · exact bounded_by_of_stage env _ (by simp [do_exhausted]) (by simp [do_exhausted])

theorem bounded_by_captures_init (env : Env) (p : MovePicker) (f : Bool) :
    bounded_by env (do_captures_init env p f) := by
  have hcur : ∀ (ms : List Move) (z : ExtMove),
      z ∈ score env.capture_score ms → z.value = env.capture_score z.move := by
    intro ms z hz
    simp only [score, List.mem_map] at hz
    obtain ⟨m, -, rfl⟩ := hz
    rfl
  unfold do_captures_init
  split <;> exact bounded_by_good env _ f (hcur _)

/-- After any call from a state whose ranges are scored, the unconsumed range
of a serving stage is scored and bounded by the score of the returned move. -/
theorem bounded_by_next_move (env : Env) (p : MovePicker) (f : Bool) (h : scored env p) :
    bounded_by env (next_move env p f) := by
  unfold next_move
  split
  · unfold do_hash_move
    split
    · exact bounded_by_of_stage env _ (by simp [serve]) (by simp [serve])
    · exact bounded_by_captures_init env p f
  · exact bounded_by_captures_init env p f
  · rename_i hst
    exact bounded_by_good env p f (h.1 hst)
  · exact bounded_by_killer0 env p f
  · exact bounded_by_killer1 env p f
  · exact bounded_by_countermove env p f
  · exact bounded_by_quiets_init env p f
  · rename_i hst
    exact bounded_by_quiets env p f (h.2 hst)
  · exact bounded_by_bad env p
  · exact bounded_by_of_stage env _ (by simp [do_exhausted]) (by simp [do_exhausted])

theorem scored_of_bounded_by (env : Env) (r : Move × MovePicker) (h : bounded_by env r) :
    scored env r.2 :=
  ⟨fun hs z hz => (h.1 hs z hz).1, fun hs z hz => (h.2 hs z hz).1⟩

theorem scored_run (env : Env) (fs : List Bool) :
    ∀ p : MovePicker, scored env p → scored env (run env p fs).2 := by
  induction fs with
  | nil => intro p hp; exact hp
  | cons f fs ih =>
    intro p hp
    simp only [run]
    exact ih _ (scored_of_bounded_by env _ (bounded_by_next_move env p f hp))

theorem scored_of_constructed (env : Env) (m : Move) (p : MovePicker)
    (hp : constructed_with m p) : scored env p := by
  rcases hp with ⟨cm, k0, k1, rfl⟩ | ⟨v, rfl⟩ | ⟨s, rfl⟩ <;>
    exact ⟨fun h => (by cases h), fun h => (by cases h)⟩

theorem good_after_good (env : Env) (p : MovePicker) (f : Bool) (B : Int)
    (hc : ∀ z ∈ p.cur, z.value = env.capture_score z.move ∧ z.value ≤ B)
    (hst : (do_good_captures env p f).2.stage = .good_captures) :
    env.capture_score (do_good_captures env p f).1 ≤ B := by
  unfold do_good_captures at hst ⊢
  cases hp : pick_best p.cur with
  | some xr =>
    obtain ⟨x, rest⟩ := xr
    obtain ⟨hperm, -⟩ := pick_best_some _ _ _ hp
    have := hc x (hperm.subset (List.mem_cons_self _ _))
    simp only [serve]
    omega
  | none =>
    rw [hp] at hst
    exfalso
    cases hm : p.mode with
    | general =>
      rw [hm] at hst
      exact stage_killer0 env _ f hst
    | threshold v => rw [hm] at hst; simp [do_exhausted] at hst
    | recapture s => rw [hm] at hst; simp [do_exhausted] at hst

theorem quiet_after_quiet (env : Env) (p : MovePicker) (f : Bool) (B : Int)
    (hc : ∀ z ∈ p.cur, z.value = env.quiet_score z.move ∧ z.value ≤ B)
    (hst : (do_quiets p f).2.stage = .quiets) :
    env.quiet_score (do_quiets p f).1 ≤ B := by
  cases f with
  | true => exact absurd hst (stage_quiets_skip p)
  | false =>
    unfold do_quiets at hst ⊢
    simp only [Bool.false_eq_true, if_false] at hst ⊢
    cases hp : pick_best p.cur with
    | some xr =>
      obtain ⟨x, rest⟩ := xr
      obtain ⟨hperm, -⟩ := pick_best_some _ _ _ hp
      have := hc x (hperm.subset (List.mem_cons_self _ _))
      simp only [serve]
      omega
    | none =>
      rw [hp] at hst
      exact absurd hst (stage_bad _).1

theorem next_move_good (env : Env) (p : MovePicker) (f : Bool)
    (h : p.stage = .good_captures) : next_move env p f = do_good_captures env p f := by
  unfold next_move; rw [h]

theorem next_move_quiets (env : Env) (p : MovePicker) (f : Bool)
    (h : p.stage = .quiets) : next_move env p f = do_quiets p f := by
  unfold next_move; rw [h]

/-- C10. Lazy selection: for a picker made by any constructor and brought to any
state by earlier calls, if two calls in a row both return from the good-captures
stage, the capture score of the second move is at most that of the first; and
the same holds for the quiets stage with the quiet score. -/
theorem C10_scores_non_increasing (env : Env) (m : Move) (p0 : MovePicker)
    (hp0 : constructed_with m p0) (fs : List Bool) (f1 f2 : Bool) :
    (let r1 := next_move env (run env p0 fs).2 f1
     let r2 := next_move env r1.2 f2
     (r1.2.stage = .good_captures → r2.2.stage = .good_captures →
        env.capture_score r2.1 ≤ env.capture_score r1.1) ∧
     (r1.2.stage = .quiets → r2.2.stage = .quiets →
        env.quiet_score r2.1 ≤ env.quiet_score r1.1)) := by
  have hs := scored_run env fs p0 (scored_of_constructed env m p0 hp0)
  have hb := bounded_by_next_move env _ f1 hs
  simp only
  constructor
  · intro h1 h2
    rw [next_move_good env _ f2 h1] at h2 ⊢
    exact good_after_good env _ f2 _ (hb.1 h1) h2
  · intro h1 h2
    rw [next_move_quiets env _ f2 h1] at h2 ⊢
    exact quiet_after_quiet env _ f2 _ (hb.2 h1) h2

/-- Instance of C10: the first two calls of a general-search picker without hash
move return the good captures 13 and 11, in this order of score. -/
theorem C10_scores_non_increasing_witness :
    sample_env.capture_score
        (next_move sample_env
          (next_move sample_env (run sample_env (general 0 0 0 0) []).2 false).2 false).1 ≤
      sample_env.capture_score
        (next_move sample_env (run sample_env (general 0 0 0 0) []).2 false).1 :=
  (C10_scores_non_increasing sample_env 0 (general 0 0 0 0) (Or.inl ⟨0, 0, 0, rfl⟩) []
    false false).1 (by decide) (by decide)

end MovePicker

/-! ## The full drain of a general-search picker -/

namespace MovePicker

end MovePicker

/-! ## The moves of the full drain -/

namespace MovePicker

end MovePicker

/-! ## The sentinel marks the end -/

namespace MovePicker

end MovePicker

/-! ## Further arithmetic of the update rule -/

theorem iabs_neg (x : Int) : iabs (-x) = iabs x := by
  unfold iabs; split <;> split <;> omega

theorem iabs_of_nonneg (x : Int) (h : 0 ≤ x) : iabs x = x := by
  unfold iabs; split <;> omega

/-- The rule commutes with negating entry and bonus together. -/
theorem update_value_neg (W D e b : Int) :
    Stats.update_value W D (-e) (-b) = -Stats.update_value W D e b := by
  unfold Stats.update_value
  have h : -e * iabs b = -(e * iabs b) := by ring
  rw [iabs_neg, h, Int.neg_tdiv]
  ring

theorem iterate_update_shift (W D b e : Int) (n : Nat) :
    Stats.iterate_update W D b e (n + 1) =
      Stats.iterate_update W D b (Stats.update_value W D e b) n := by
  induction n with
  | zero => rfl
  | succ n ih =>
    show Stats.update_value W D (Stats.iterate_update W D b e (n + 1)) b = _
    rw [ih]
    rfl

theorem iterate_update_neg (W D b e : Int) (n : Nat) :
    Stats.iterate_update W D (-b) (-e) n = -Stats.iterate_update W D b e n := by
  induction n with
  | zero => rfl
  | succ n ih =>
    show Stats.update_value W D (Stats.iterate_update W D (-b) (-e) n) (-b) = _
    rw [ih, update_value_neg]
    rfl

/-- A positive bonus moves an in-range entry below `W*D` strictly upwards. -/
theorem update_value_gt (W D e b : Int) (he : iabs e ≤ W * D) (hb1 : 1 ≤ b) (hbD : b ≤ D)
    (hlt : e < W * D) : e < Stats.update_value W D e b := by
  have hD : 1 ≤ D := le_trans hb1 hbD
  have ha : iabs b = b := iabs_of_nonneg b (by omega)
  obtain ⟨r, hr, hr1, -, hr3, hr4⟩ := tdiv_spec (e * iabs b) D (by omega)
  rw [ha] at hr hr3 hr4
  have he2 := (iabs_le_iff e (W * D)).1 he
  have hq : Int.tdiv (e * b) D < b * W := by
    rcases le_or_lt 0 e with h0 | h0
    · have hx : 0 ≤ e * b := mul_nonneg h0 (by omega)
      have h1 : e * b < W * D * b := mul_lt_mul_of_pos_right hlt (by omega)
      have h2 : D * Int.tdiv (e * b) D < D * (b * W) := by
        have : W * D * b = D * (b * W) := by ring
        have := hr3 hx
        omega
      exact lt_of_mul_lt_mul_left h2 (by omega)
    · have hx : e * b ≤ 0 := by
        have := mul_nonneg (by omega : (0 : Int) ≤ -e) (by omega : (0 : Int) ≤ b)
        have e1 : -e * b = -(e * b) := by ring
        omega
      have hW : 1 ≤ W := by
        by_contra hW
        have : W * D ≤ 0 := mul_nonpos_of_nonpos_of_nonneg (by omega) (by omega)
        omega
      have h2 : D * Int.tdiv (e * b) D < D * 1 := by
        have := hr4 hx
        omega
      have h3 := lt_of_mul_lt_mul_left h2 (by omega : (0 : Int) ≤ D)
      have h4 : 1 ≤ b * W := by nlinarith
      omega
  unfold Stats.update_value
  rw [ha]
  omega

/-- At `W*D` a positive bonus changes nothing. -/
theorem update_value_fixed (W D b : Int) (hb1 : 1 ≤ b) (hbD : b ≤ D) :
    Stats.update_value W D (W * D) b = W * D := by
  have ha : iabs b = b := iabs_of_nonneg b (by omega)
  unfold Stats.update_value
  have : W * D * b = (W * b) * D := by ring
  rw [ha, this, Int.mul_tdiv_cancel _ (by omega : D ≠ 0)]
  ring

/-- Repeating a positive bonus reaches `W*D`. -/
theorem iterate_update_reaches (W D b : Int) (hb1 : 1 ≤ b) (hbD : b ≤ D) (k : Nat) :
    ∀ e : Int, iabs e ≤ W * D → W * D - e ≤ k →
      ∃ n : Nat, Stats.iterate_update W D b e n = W * D := by
  have hD : 1 ≤ D := le_trans hb1 hbD
  have hb : iabs b ≤ D := by rw [iabs_of_nonneg b (by omega)]; exact hbD
  induction k with
  | zero =>
    intro e he hk
    have he2 := (iabs_le_iff e (W * D)).1 he
    exact ⟨0, by show e = W * D; omega⟩
  | succ k ih =>
    intro e he hk
    have he2 := (iabs_le_iff e (W * D)).1 he
    rcases eq_or_lt_of_le he2.2 with h | h
    · exact ⟨0, h⟩
    · have hgt := update_value_gt W D e b he hb1 hbD h
      obtain ⟨n, hn⟩ := ih (Stats.update_value W D e b)
        (update_value_bound W D e b hD he hb) (by push_cast at hk ⊢; omega)
      exact ⟨n + 1, by rw [iterate_update_shift, hn]⟩

/-- The rule is monotone in the bonus on in-range entries. -/
theorem update_value_mono_bonus (W D e b1 b2 : Int) (hD : 1 ≤ D) (he : iabs e ≤ W * D)
    (h12 : b1 ≤ b2) : Stats.update_value W D e b1 ≤ Stats.update_value W D e b2 := by
  obtain ⟨r1, hr1, hl1, hu1, hp1, hn1⟩ := tdiv_spec (e * iabs b1) D (by omega)
  obtain ⟨r2, hr2, hl2, hu2, hp2, hn2⟩ := tdiv_spec (e * iabs b2) D (by omega)
  have k1 := update_value_scaled W D e b1 r1 hr1
  have k2 := update_value_scaled W D e b2 r2 hr2
  have he2 := (iabs_le_iff e (W * D)).1 he
  have ha1 := iabs_nonneg b1
  have ha2 := iabs_nonneg b2
  have hd1 : iabs b2 - iabs b1 ≤ b2 - b1 := by unfold iabs; split <;> split <;> omega
  have hd2 : -(b2 - b1) ≤ iabs b2 - iabs b1 := by unfold iabs; split <;> split <;> omega
  have hprod : e * (iabs b2 - iabs b1) ≤ W * D * (b2 - b1) := by
    nlinarith [mul_nonneg (by omega : (0 : Int) ≤ W * D - e)
        (by omega : (0 : Int) ≤ (b2 - b1) + (iabs b2 - iabs b1)),
      mul_nonneg (by omega : (0 : Int) ≤ W * D + e)
        (by omega : (0 : Int) ≤ (b2 - b1) - (iabs b2 - iabs b1))]
  have hrem : -D < r2 - r1 := by
    rcases le_total 0 e with h0 | h0
    · have := hp1 (mul_nonneg h0 ha1)
      have := hp2 (mul_nonneg h0 ha2)
      omega
    · have := hn1 (mul_nonpos_of_nonpos_of_nonneg h0 ha1)
      have := hn2 (mul_nonpos_of_nonpos_of_nonneg h0 ha2)
      omega
  have hscaled : D * (Stats.update_value W D e b1 - 1) <
      D * Stats.update_value W D e b2 := by
    have e1 : e * (D - iabs b2) - e * (D - iabs b1) = -(e * (iabs b2 - iabs b1)) := by ring
    have e2 : D * (b2 * W) - D * (b1 * W) = W * D * (b2 - b1) := by ring
    have e3 : D * (Stats.update_value W D e b1 - 1) =
        D * Stats.update_value W D e b1 - D := by ring
    omega
  have := lt_of_mul_lt_mul_left hscaled (by omega : (0 : Int) ≤ D)
  omega

/-- The rule is monotone in the entry for an admissible bonus. -/
theorem update_value_mono_entry (W D e1 e2 b : Int) (hD : 1 ≤ D) (hb : iabs b ≤ D)
    (h12 : e1 ≤ e2) : Stats.update_value W D e1 b ≤ Stats.update_value W D e2 b := by
  obtain ⟨r1, hr1, hl1, hu1, hp1, hn1⟩ := tdiv_spec (e1 * iabs b) D (by omega)
  obtain ⟨r2, hr2, hl2, hu2, hp2, hn2⟩ := tdiv_spec (e2 * iabs b) D (by omega)
  have k1 := update_value_scaled W D e1 b r1 hr1
  have k2 := update_value_scaled W D e2 b r2 hr2
  have ha := iabs_nonneg b
  have hprod : 0 ≤ (e2 - e1) * (D - iabs b) := mul_nonneg (by omega) (by omega)
  have hrem : -D < r2 - r1 := by
    rcases le_total 0 e1 with h0 | h0
    · have := hp1 (mul_nonneg h0 ha)
      have := hp2 (mul_nonneg (le_trans h0 h12) ha)
      omega
    · have := hn1 (mul_nonpos_of_nonpos_of_nonneg h0 ha)
      rcases le_total 0 e2 with h2 | h2
      · have := hp2 (mul_nonneg h2 ha)
        omega
      · have := hn2 (mul_nonpos_of_nonpos_of_nonneg h2 ha)
        omega
  have hscaled : D * (Stats.update_value W D e1 b - 1) <
      D * Stats.update_value W D e2 b := by
    have e1' : e2 * (D - iabs b) - e1 * (D - iabs b) = (e2 - e1) * (D - iabs b) := by ring
    have e3 : D * (Stats.update_value W D e1 b - 1) =
        D * Stats.update_value W D e1 b - D := by ring
    omega
  have := lt_of_mul_lt_mul_left hscaled (by omega : (0 : Int) ≤ D)
  omega

/-- On an `int16_t` table that passes the second assertion, an update with the
bonus `D` or `-D` runs without overflow on every `int16_t` entry and stores
`bonus * W`. -/
theorem update_extreme_ok (W D e b : Int) (hW : 1 ≤ W) (hD : 1 ≤ D) (hWD : W * D < 32767)
    (he1 : -32768 ≤ e) (he2 : e ≤ 32767) (hb : b = D ∨ b = -D) :
    Stats.update W D e b = .ok (b * W) := by
  have ha : iabs b = D := by
    rcases hb with rfl | rfl
    · exact iabs_of_nonneg _ (by omega)
    · rw [iabs_neg]; exact iabs_of_nonneg _ (by omega)
  have hDW : D ≤ W * D := by nlinarith
  have hcomm : D * W = W * D := mul_comm D W
  have hbW : b * W = W * D ∨ b * W = -(W * D) := by
    rcases hb with rfl | rfl
    · left; ring
    · right; ring
  have ht3 : Int.tdiv (e * D) D = e := Int.mul_tdiv_cancel e (by omega : D ≠ 0)
  have h2u : e * D ≤ 32768 * 32767 := by nlinarith
  have h2l : -(32768 * 32767) ≤ e * D := by nlinarith
  have f0 : fitsInt D = true := (fitsInt_iff _).2 ⟨by omega, by omega⟩
  have f1 : fitsInt (b * W) = true := (fitsInt_iff _).2 ⟨by omega, by omega⟩
  have f2 : fitsInt (e * D) = true := (fitsInt_iff _).2 ⟨by omega, by omega⟩
  have f3 : fitsInt e = true := (fitsInt_iff _).2 ⟨by omega, by omega⟩
  have f4 : fitsInt (b * W - e) = true := (fitsInt_iff _).2 ⟨by omega, by omega⟩
  have ht5 : e + (b * W - e) = b * W := by ring
  have hst : toInt16 (b * W) = b * W := toInt16_of_fits _ (by omega) (by omega)
  have hr : iabs (W * D) < INT16_MAX := by
    rw [iabs_of_nonneg _ (by omega)]; exact hWD
  have hD0 : D ≠ 0 := by omega
  have hfin : iabs (b * W) ≤ W * D := (iabs_le_iff _ _).2 ⟨by omega, by omega⟩
  simp [Stats.update, ha, f0, f1, f2, f3, f4, ht3, ht5, hr, hD0, hst, hfin]

/-- On the `int16_t` element type the member `update` is the checked `update`. -/
theorem update_T_int16 (W D e b : Int) :
    Stats.update_T .int16 toInt16 W D e b = some (Stats.update W D e b) := rfl

/-- C11. One-step saturation: on a table with `D >= 1`, for every entry `e`,
in range or not, the rule maps `(e, D)` to `W*D` and `(e, -D)` to `-W*D`; and
on an `int16_t` table with `W >= 1` that passes the second assertion the
checked `update` does so for every `int16_t` entry, with no overflow. -/
theorem C11_one_step_saturation (W D e : Int) (hD : 1 ≤ D) :
    Stats.update_value W D e D = W * D ∧
    Stats.update_value W D e (-D) = -(W * D) ∧
    (1 ≤ W → W * D < INT16_MAX → fitsInt16 e = true →
      Stats.update W D e D = .ok (W * D) ∧ Stats.update W D e (-D) = .ok (-(W * D))) := by
  refine ⟨update_value_max_bonus W D e hD, update_value_min_bonus W D e hD, ?_⟩
  intro hW hWD he
  simp only [fitsInt16, INT16_MIN, INT16_MAX, Bool.and_eq_true, decide_eq_true_eq] at he
  have h1 := update_extreme_ok W D e D hW hD hWD he.1 he.2 (Or.inl rfl)
  have h2 := update_extreme_ok W D e (-D) hW hD hWD he.1 he.2 (Or.inr rfl)
  have e1 : D * W = W * D := by ring
  have e2 : -D * W = -(W * D) := by ring
  rw [e1] at h1
  rw [e2] at h2
  exact ⟨h1, h2⟩

/-- Instance of C11 on `ButterflyBoards` at the out-of-range entry `-32768`. -/
theorem C11_one_step_saturation_witness :
    Stats.update_value 32 324 (-32768) 324 = 32 * 324 ∧
    Stats.update_value 32 324 (-32768) (-324) = -(32 * 324) ∧
    Stats.update 32 324 (-32768) 324 = .ok (32 * 324) ∧
    Stats.update 32 324 (-32768) (-324) = .ok (-(32 * 324)) :=
  have h := C11_one_step_saturation 32 324 (-32768) (by decide)
  ⟨h.1, h.2.1, h.2.2 (by decide) (by decide) (by decide)⟩

/-- C12. Strict progress toward the target: for an in-range entry `e` and a
bonus `1 <= b <= D`, the rule gives more than `e` when `e < W*D` and gives `e`
when `e = W*D`, so `W*D` is the only in-range fixed point and repeating the
bonus reaches `W*D` after finitely many updates; symmetrically for
`-D <= b <= -1` with `-W*D`. -/
theorem C12_strict_progress (W D e b : Int) (he : iabs e ≤ W * D) :
    (1 ≤ b → b ≤ D →
      (e < W * D → e < Stats.update_value W D e b) ∧
      (e = W * D → Stats.update_value W D e b = e) ∧
      (Stats.update_value W D e b = e ↔ e = W * D) ∧
      ∃ n : Nat, Stats.iterate_update W D b e n = W * D) ∧
    (-D ≤ b → b ≤ -1 →
      (-(W * D) < e → Stats.update_value W D e b < e) ∧
      (e = -(W * D) → Stats.update_value W D e b = e) ∧
      (Stats.update_value W D e b = e ↔ e = -(W * D)) ∧
      ∃ n : Nat, Stats.iterate_update W D b e n = -(W * D)) := by
  have he2 := (iabs_le_iff e (W * D)).1 he
  constructor
  · intro hb1 hbD
    have hgt : e < W * D → e < Stats.update_value W D e b :=
      update_value_gt W D e b he hb1 hbD
    have hfix : e = W * D → Stats.update_value W D e b = e := by
      intro h; rw [h]; exact update_value_fixed W D b hb1 hbD
    refine ⟨hgt, hfix, ⟨fun h => ?_, hfix⟩, ?_⟩
    · by_contra hne
      have := hgt (lt_of_le_of_ne he2.2 hne)
      omega
    · exact iterate_update_reaches W D b hb1 hbD (W * D - e).toNat e he
        (by rw [Int.toNat_of_nonneg (by omega)])
  · intro hbD hb1
    have hen : iabs (-e) ≤ W * D := by rw [iabs_neg]; exact he
    have hsym : Stats.update_value W D e b = -Stats.update_value W D (-e) (-b) := by
      have := update_value_neg W D (-e) (-b)
      simp only [neg_neg] at this
      omega
    have hgt : -(W * D) < e → Stats.update_value W D e b < e := by
      intro h
      have := update_value_gt W D (-e) (-b) hen (by omega) (by omega) (by omega)
      omega
    have hfix : e = -(W * D) → Stats.update_value W D e b = e := by
      intro h
      have h' : -e = W * D := by omega
      have := update_value_fixed W D (-b) (by omega) (by omega)
      rw [← h'] at this
      omega
    refine ⟨hgt, hfix, ⟨fun h => ?_, hfix⟩, ?_⟩
    · by_contra hne
      have := hgt (lt_of_le_of_ne he2.1 (fun h' => hne h'.symm))
      omega
    · obtain ⟨n, hn⟩ := iterate_update_reaches W D (-b) (by omega) (by omega)
        (W * D - -e).toNat (-e) hen (by rw [Int.toNat_of_nonneg (by omega)])
      refine ⟨n, ?_⟩
      have := iterate_update_neg W D (-b) (-e) n
      simp only [neg_neg] at this
      omega

/-- Instance of C12 on `CapturePieceToBoards`: entry `100`, bonus `5`, and
entry `100`, bonus `-5`. -/
theorem C12_strict_progress_witness :
    (100 < Stats.update_value 2 324 100 5 ∧
      (∃ n : Nat, Stats.iterate_update 2 324 5 100 n = 2 * 324)) ∧
    (Stats.update_value 2 324 100 (-5) < 100 ∧
      (∃ n : Nat, Stats.iterate_update 2 324 (-5) 100 n = -(2 * 324))) :=
  have h := C12_strict_progress 2 324 100 5 (by decide)
  have h' := C12_strict_progress 2 324 100 (-5) (by decide)
  ⟨⟨(h.1 (by decide) (by decide)).1 (by decide), (h.1 (by decide) (by decide)).2.2.2⟩,
    ⟨(h'.2 (by decide) (by decide)).1 (by decide), (h'.2 (by decide) (by decide)).2.2.2⟩⟩

/-- C13. Sign symmetry: for every entry `e` and bonus `b`, the rule on
`(-e, -b)` gives the negation of the rule on `(e, b)`; on an `int16_t` table
with `W >= 1`, `D >= 1` that passes the second assertion, for an in-range entry
and a bonus with `|b| <= D`, the checked `update` returns these two values. The
identity needs the truncating quotient: with the quotient rounded down it fails
at `W = 1`, `D = 2`, `e = 1`, `b = 1`. -/
theorem C13_sign_symmetry (W D e b : Int) :
    Stats.update_value W D (-e) (-b) = -Stats.update_value W D e b ∧
    (1 ≤ W → 1 ≤ D → W * D < INT16_MAX → iabs e ≤ W * D → iabs b ≤ D →
      Stats.update W D e b = .ok (Stats.update_value W D e b) ∧
      Stats.update W D (-e) (-b) = .ok (-Stats.update_value W D e b)) ∧
    (-1 : Int) + (-1 * 1 - (-1 * iabs (-1)) / 2) ≠ -(1 + (1 * 1 - (1 * iabs 1) / 2)) := by
  refine ⟨update_value_neg W D e b, ?_, by decide⟩
  intro hW hD hWD he hb
  have h1 := (update_eq_ok W D e b hW hD hWD he hb).2
  have h2 := (update_eq_ok W D (-e) (-b) hW hD hWD (by rw [iabs_neg]; exact he)
    (by rw [iabs_neg]; exact hb)).2
  rw [update_value_neg] at h2
  exact ⟨h1, h2⟩

/-- Instance of C13 on `PieceToBoards`: entry `1001`, bonus `-77`. -/
theorem C13_sign_symmetry_witness :
    Stats.update_value 32 936 (-1001) (- -77) = -Stats.update_value 32 936 1001 (-77) ∧
    Stats.update 32 936 1001 (-77) = .ok (Stats.update_value 32 936 1001 (-77)) ∧
    Stats.update 32 936 (-1001) (- -77) = .ok (-Stats.update_value 32 936 1001 (-77)) :=
  have h := C13_sign_symmetry 32 936 1001 (-77)
  have h2 := h.2.1 (by decide) (by decide) (by decide) (by decide) (by decide)
  ⟨h.1, h2.1, h2.2⟩

/-- C14. Monotonicity in the bonus: for an in-range entry `e` and bonuses
`b1 <= b2`, both in `[-D, D]`, the rule on `(e, b1)` gives at most the rule on
`(e, b2)`; on an `int16_t` table with `W >= 1`, `D >= 1` that passes the second
assertion the checked `update` returns two values in this order. -/
theorem C14_monotone_in_bonus (W D e b1 b2 : Int) (he : iabs e ≤ W * D)
    (hl : -D ≤ b1) (h12 : b1 ≤ b2) (hu : b2 ≤ D) :
    Stats.update_value W D e b1 ≤ Stats.update_value W D e b2 ∧
    (1 ≤ W → 1 ≤ D → W * D < INT16_MAX →
      ∃ v1 v2 : Int, Stats.update W D e b1 = .ok v1 ∧ Stats.update W D e b2 = .ok v2 ∧
        v1 ≤ v2) := by
  have hmono : Stats.update_value W D e b1 ≤ Stats.update_value W D e b2 := by
    rcases lt_or_le D 1 with hD | hD
    · have h1 : b1 = 0 := by omega
      have h2 : b2 = 0 := by omega
      rw [h1, h2]
    · exact update_value_mono_bonus W D e b1 b2 hD he h12
  refine ⟨hmono, ?_⟩
  intro hW hD hWD
  have hb1 : iabs b1 ≤ D := (iabs_le_iff _ _).2 ⟨hl, by omega⟩
  have hb2 : iabs b2 ≤ D := (iabs_le_iff _ _).2 ⟨by omega, hu⟩
  exact ⟨_, _, (update_eq_ok W D e b1 hW hD hWD he hb1).2,
    (update_eq_ok W D e b2 hW hD hWD he hb2).2, hmono⟩

/-- Instance of C14 on `ButterflyBoards`: entry `-7000`, bonuses `-300` and `12`. -/
theorem C14_monotone_in_bonus_witness :
    Stats.update_value 32 324 (-7000) (-300) ≤ Stats.update_value 32 324 (-7000) 12 ∧
    ∃ v1 v2 : Int, Stats.update 32 324 (-7000) (-300) = .ok v1 ∧
      Stats.update 32 324 (-7000) 12 = .ok v2 ∧ v1 ≤ v2 :=
  have h := C14_monotone_in_bonus 32 324 (-7000) (-300) 12 (by decide) (by decide)
    (by decide) (by decide)
  ⟨h.1, h.2 (by decide) (by decide) (by decide)⟩

/-- C15. Order preservation in the entry: for a bonus with `|b| <= D` and
entries `e1 <= e2`, the rule on `(e1, b)` gives at most the rule on `(e2, b)`;
on an `int16_t` table with `W >= 1`, `D >= 1` that passes the second assertion
the checked `update` on two in-range entries returns two values in this order. -/
theorem C15_order_preserved (W D e1 e2 b : Int) (hb : iabs b ≤ D) (h12 : e1 ≤ e2) :
    Stats.update_value W D e1 b ≤ Stats.update_value W D e2 b ∧
    (1 ≤ W → 1 ≤ D → W * D < INT16_MAX → iabs e1 ≤ W * D → iabs e2 ≤ W * D →
      ∃ v1 v2 : Int, Stats.update W D e1 b = .ok v1 ∧ Stats.update W D e2 b = .ok v2 ∧
        v1 ≤ v2) := by
  have hmono : Stats.update_value W D e1 b ≤ Stats.update_value W D e2 b := by
    rcases lt_or_le D 1 with hD | hD
    · have hb0 : b = 0 := by
        have := iabs_nonneg b
        have hb' := (iabs_le_iff b D).1 hb
        omega
      rw [hb0]
      simp only [Stats.update_value, iabs, lt_self_iff_false, if_false, mul_zero,
        zero_mul, Int.zero_tdiv, sub_zero, add_zero]
      exact h12
    · exact update_value_mono_entry W D e1 e2 b hD hb h12
  refine ⟨hmono, ?_⟩
  intro hW hD hWD he1 he2
  exact ⟨_, _, (update_eq_ok W D e1 b hW hD hWD he1 hb).2,
    (update_eq_ok W D e2 b hW hD hWD he2 hb).2, hmono⟩

/-- Instance of C15 on `PieceToBoards`: entries `-1` and `1`, bonus `500`. -/
theorem C15_order_preserved_witness :
    Stats.update_value 32 936 (-1) 500 ≤ Stats.update_value 32 936 1 500 ∧
    ∃ v1 v2 : Int, Stats.update 32 936 (-1) 500 = .ok v1 ∧
      Stats.update 32 936 1 500 = .ok v2 ∧ v1 ≤ v2 :=
  have h := C15_order_preserved 32 936 (-1) 1 500 (by decide) (by decide)
  ⟨h.1, h.2 (by decide) (by decide) (by decide) (by decide) (by decide)⟩

end Stockfish
